import Mathlib

/-! Verification development for the derivative-machine symbolic
differentiation engine: expression and pattern trees, the pattern
matcher and template writer, the fixed-point rewrite driver, the
rule-based derivative, and the lexer/parser pipeline.  Floating-point
literal values are modelled as exact rationals. -/

/-! ## Expression trees (parser.rs) -/

/-- Binary operator kinds, from `BinOpKind` in parser.rs. -/
inductive BinOpKind where
  | Plus
  | Minus
  | Asterisk
  | Slash
  | Exponent
  deriving DecidableEq

/-- Unary operator kinds, from `UnaryOpKind` in src/parser.rs.  The old
tree has both `Plus` and `Minus`; the derivative-calculator tree keeps
only `Minus` and its parser rejects `Plus` (its TryFrom returns Err). -/
inductive UnaryOpKind where
  | Plus
  | Minus
  deriving DecidableEq

/-- Expression tree, from `Expr` in parser.rs.  `f64` literal values are
modelled as exact rationals. -/
inductive Expr where
  | Literal (num : ℚ)
  | Identifier (ident : String)
  | Binary (left : Expr) (op : BinOpKind) (right : Expr)
  | Unary (op : UnaryOpKind) (right : Expr)
  | Error
  deriving DecidableEq

/-! ## Pattern trees (rule/parser.rs) -/

/-- Pattern tree, from `RuleExpr` in rule/parser.rs. -/
inductive RuleExpr where
  | Literal (num : ℚ)
  | AnySubExpr (id : Int)
  | AnyLiteral (id : Int)
  | AnyNonLiteral (id : Int)
  | Binary (left : RuleExpr) (op : BinOpKind) (right : RuleExpr)
  | Unary (op : UnaryOpKind) (right : RuleExpr)
  | Error
  deriving DecidableEq

/-! ## Bindings (the `BTreeMap<i32, &Expr>` of rule.rs) -/

/-- Binding map from wildcard ids to matched expressions, modelling the
`BTreeMap<i32, &Expr>` used by the matcher.  Only `get` and `insert`
are used by the source, so an association list is a faithful model. -/
abbrev BMap := List (Int × Expr)

/-- `BTreeMap::get`. -/
def lookupB : BMap → Int → Option Expr
  | [], _ => none
  | (k, v) :: t, id => if k = id then some v else lookupB t id

/-- `BTreeMap::insert`: replaces the value when the key is present. -/
def insertB : BMap → Int → Expr → BMap
  | [], id, v => [(id, v)]
  | (k, w) :: t, id, v => if k = id then (id, v) :: t else (k, w) :: insertB t id v

/-- Match result, from `MatchResult` in rule.rs.  The source calls the
first field `matches`, which is a reserved word here, so it is named
`matched`. -/
structure MatchResult where
  matched : Bool
  source_expr : Expr
  matched_exprs : BMap
  deriving DecidableEq

/-! ## Matcher and writer (rule.rs) -/

/-- The `insert_added_match` closure of `match_expr_inner` (rule.rs
lines 42-50): succeeds when the id is unbound or already bound to a
structurally equal expression, failing (without inserting) otherwise. -/
def insert_added_match (m : BMap) (id : Int) (e : Expr) : Bool × BMap :=
  match lookupB m id with
  | none => (true, insertB m id e)
  | some existing => if existing = e then (true, insertB m id e) else (false, m)

/-- `RuleExpr::match_expr_inner` (rule.rs lines 35-85).  Returns the
match success flag and the (possibly partially extended) binding map;
`&&` short-circuits, so a failed left child leaves its partial
bindings but never runs the right child. -/
def match_expr_inner : RuleExpr → Expr → BMap → Bool × BMap
  | .Literal num_rule, e, m =>
    ((match e with
      | .Literal num => decide (num = num_rule)
      | _ => false), m)
  | .AnySubExpr id, e, m => insert_added_match m id e
  | .AnyLiteral id, e, m =>
    (match e with
      | .Literal _ => insert_added_match m id e
      | _ => (false, m))
  | .AnyNonLiteral id, e, m =>
    (match e with
      | .Literal _ => (false, m)
      | _ => insert_added_match m id e)
  | .Binary left_rule op_rule right_rule, e, m =>
    (match e with
      | .Binary left op right =>
        if op = op_rule then
          match match_expr_inner left_rule left m with
          | (true, m1) => match_expr_inner right_rule right m1
          | (false, m1) => (false, m1)
        else (false, m)
      | _ => (false, m))
  | .Unary op_rule right_rule, e, m =>
    (match e with
      | .Unary op right =>
        if op = op_rule then match_expr_inner right_rule right m else (false, m)
      | _ => (false, m))
  | .Error, _, m => (false, m)

/-- `RuleExpr::match_expr` (rule.rs lines 90-98); `match_expr` is
reserved syntax here, hence the camel-case name. -/
def matchExpr (p : RuleExpr) (e : Expr) : MatchResult :=
  let r := match_expr_inner p e []
  ⟨r.1, e, r.2⟩

/-- `RuleExpr::write_expr` (rule.rs lines 103-154).  The source panics
on a missing or mistyped binding; panics are modelled as `none`. -/
def write_expr : RuleExpr → BMap → Option Expr
  | .Literal num, _ => some (.Literal num)
  | .AnySubExpr id, m => lookupB m id
  | .AnyLiteral id, m => lookupB m id
  | .AnyNonLiteral id, m => lookupB m id
  | .Binary left_rule op right_rule, m =>
    match write_expr left_rule m with
    | none => none
    | some left =>
      match write_expr right_rule m with
      | none => none
      | some right => some (.Binary left op right)
  | .Unary op right_rule, m =>
    if op = .Minus then
      match right_rule with
      | .Literal num => some (.Literal (-num))
      | .AnyLiteral id =>
        -- negative-literal folding on a literal wildcard; `unreachable!()`
        -- on a non-literal binding is modelled as `none`
        (match lookupB m id with
          | some (.Literal num) => some (.Literal (-num))
          | _ => none)
      | _ =>
        match write_expr right_rule m with
        | none => none
        | some right => some (.Unary op right)
    else
      -- emit right ast as is
      write_expr right_rule m
  | .Error, _ => some .Error

/-! ## Rewrite engine (transformations.rs) -/

/-- `MAX_ITERATIONS_PER_APPLY` (transformations.rs line 11). -/
def MAX_ITERATIONS_PER_APPLY : Int := 500

/-- `TransformOut` (transformations.rs lines 13-17). -/
inductive TransformOut where
  | OutPattern (out : RuleExpr)
  | OutHandler (handler : MatchResult → Option Expr)

/-- `Transformation` (transformations.rs lines 19-22). -/
structure Transformation where
  pattern : RuleExpr
  out : TransformOut

/-- `RuleTransformSet` is just its ordered list of rules. -/
abbrev RuleTransformSet := List Transformation

/-- One in-order pass of the `for transform in &self.rules` loop inside
`apply_rules` (transformations.rs lines 66-85), threading the working
expression and the `last_iter_transformed` flag.  A matching rule first
assigns the flag `true`; a handler returning `None` then assigns it
back to `false`.  A `write_expr` panic is modelled as `none`. -/
def run_pass_aux : RuleTransformSet → Expr → Bool → Option (Expr × Bool)
  | [], e, flag => some (e, flag)
  | t :: ts, e, flag =>
    let res := matchExpr t.pattern e
    if res.matched then
      match t.out with
      | .OutPattern out =>
        match write_expr out res.matched_exprs with
        | some e2 => run_pass_aux ts e2 true
        | none => none
      | .OutHandler handler =>
        match handler res with
        | some e2 => run_pass_aux ts e2 true
        | none => run_pass_aux ts e false
    else run_pass_aux ts e flag

/-- One full pass over the rules, starting with
`last_iter_transformed = false`. -/
def run_pass (rules : RuleTransformSet) (e : Expr) : Option (Expr × Bool) :=
  run_pass_aux rules e false

/-- The `loop` of `RuleTransformSet::apply_rules` (transformations.rs
lines 62-96).  The counter `i` of the source starts at 0 and the loop
breaks when `i > 500` after a transforming pass; here `fuel = 501 - i`,
so the initial call uses fuel 501.  The result carries the final
expression, the number of passes executed, and whether the
iteration-cap warning was emitted. -/
def apply_rules_aux (rules : RuleTransformSet) : Nat → Expr → Option (Expr × Nat × Bool)
  | fuel, e =>
    match run_pass rules e with
    | none => none
    | some (e2, false) => some (e2, 1, false)
    | some (e2, true) =>
      match fuel with
      | 0 => some (e2, 1, true)
      | fuel2 + 1 =>
        match apply_rules_aux rules fuel2 e2 with
        | none => none
        | some (r, n, c) => some (r, n + 1, c)

/-- `RuleTransformSet::apply_rules`. -/
def apply_rules (rules : RuleTransformSet) (e : Expr) : Option (Expr × Nat × Bool) :=
  apply_rules_aux rules 501 e

/-! ## Rule-based derivative (transformations/derivative.rs) -/

/-- Size of an expression, used as recursion fuel for the derivative. -/
def exprSize : Expr → Nat
  | .Literal _ => 1
  | .Identifier _ => 1
  | .Binary left _ right => 1 + exprSize left + exprSize right
  | .Unary _ right => 1 + exprSize right
  | .Error => 1

/-- `res.matched_exprs.get(&id).unwrap()`: the patterns of the
derivative rule set always bind the looked-up id, so the panic branch
(modelled as `Expr.Error`) is unreachable. -/
def getB (m : BMap) (id : Int) : Expr := (lookupB m id).getD Expr.Error

/-- Modelled from the spec: `RuleTransformSet::apply_rules_once`, the
single-application driver used by the rule-based derivative; it is
declared in the missing derivative-calculator transformations.rs.  Per
spec section 4.7 it performs exactly one successful rule application at
the root: rules are tried in declared order, a handler returning
"no change" vetoes and the driver proceeds to the next rule, and `none`
is returned when no rule applies. -/
def apply_rules_once : RuleTransformSet → Expr → Option Expr
  | [], _ => none
  | t :: ts, e =>
    let res := matchExpr t.pattern e
    if res.matched then
      match t.out with
      | .OutPattern out => write_expr out res.matched_exprs
      | .OutHandler handler =>
        match handler res with
        | some r => some r
        | none => apply_rules_once ts e
    else apply_rules_once ts e

/-- The ordered derivative rule set (transformations/derivative.rs
lines 8-93), parameterised by the recursive derivative call `d`.
`new_from_str` puts the pattern rules first, then the handlers, in
declared order; pattern strings are embedded in parsed form:
`"_lit1" -> "0"`, then handlers on `"_1"`, `"-_1"`, `"_1 + _2"`,
`"_1 * _2"`, `"_1 / _2"`, `"_1 ^ _2"` and the catch-all `"_1"`. -/
def deriv_rules (d : Expr → Expr) : RuleTransformSet :=
  [ ⟨.AnyLiteral 1, .OutPattern (.Literal 0)⟩,
    ⟨.AnySubExpr 1, .OutHandler fun res =>
      match lookupB res.matched_exprs 1 with
      | some (.Identifier id) => if id = "x" then some (.Literal 1) else none
      | _ => none⟩,
    ⟨.Unary .Minus (.AnySubExpr 1), .OutHandler fun res =>
      some (.Unary .Minus (d (getB res.matched_exprs 1)))⟩,
    ⟨.Binary (.AnySubExpr 1) .Plus (.AnySubExpr 2), .OutHandler fun res =>
      some (.Binary (d (getB res.matched_exprs 1)) .Plus
        (d (getB res.matched_exprs 2)))⟩,
    ⟨.Binary (.AnySubExpr 1) .Asterisk (.AnySubExpr 2), .OutHandler fun res =>
      some (.Binary
        (.Binary (d (getB res.matched_exprs 1)) .Asterisk (getB res.matched_exprs 2))
        .Plus
        (.Binary (d (getB res.matched_exprs 2)) .Asterisk (getB res.matched_exprs 1)))⟩,
    ⟨.Binary (.AnySubExpr 1) .Slash (.AnySubExpr 2), .OutHandler fun res =>
      some (.Binary
        (.Binary
          (.Binary (d (getB res.matched_exprs 1)) .Asterisk (getB res.matched_exprs 2))
          .Minus
          (.Binary (d (getB res.matched_exprs 2)) .Asterisk (getB res.matched_exprs 1)))
        .Slash
        (.Binary (getB res.matched_exprs 2) .Exponent (.Literal 2)))⟩,
    ⟨.Binary (.AnySubExpr 1) .Exponent (.AnySubExpr 2), .OutHandler fun res =>
      some (.Binary
        (.Binary (getB res.matched_exprs 2) .Asterisk
          (.Binary (getB res.matched_exprs 1) .Exponent
            (.Binary (getB res.matched_exprs 2) .Minus (.Literal 1))))
        .Asterisk
        (d (getB res.matched_exprs 1)))⟩,
    ⟨.AnySubExpr 1, .OutHandler fun _ => some Expr.Error⟩ ]

/-- Fuel-indexed derivative: the handlers recurse on strict
sub-expressions of the matched node, so `exprSize e` fuel suffices.
An exhausted-fuel result and the `.expect` panic of the source (both
unreachable: the catch-all rule always applies) are modelled as
`Expr.Error`. -/
def derivativeAux : Nat → Expr → Expr
  | 0, _ => Expr.Error
  | fuel + 1, e => (apply_rules_once (deriv_rules (derivativeAux fuel)) e).getD Expr.Error

/-- `derivative` (transformations/derivative.rs lines 7-98). -/
def derivative (e : Expr) : Expr := derivativeAux (exprSize e) e

/-! ## Paths into trees and pattern predicates -/

/-- A direction into a child node: the `left` or `right` field. -/
inductive Dir where
  | l
  | r
  deriving DecidableEq

/-- Sub-pattern at a path; the child of a unary node is its `right`. -/
def patAt : RuleExpr → List Dir → Option RuleExpr
  | p, [] => some p
  | .Binary left _ _, .l :: path => patAt left path
  | .Binary _ _ right, .r :: path => patAt right path
  | .Unary _ right, .r :: path => patAt right path
  | _, _ => none

/-- Sub-expression at a path; the child of a unary node is its `right`. -/
def exprAt : Expr → List Dir → Option Expr
  | e, [] => some e
  | .Binary left _ _, .l :: path => exprAt left path
  | .Binary _ _ right, .r :: path => exprAt right path
  | .Unary _ right, .r :: path => exprAt right path
  | _, _ => none

/-- The id carried by a wildcard pattern node. -/
def wildId : RuleExpr → Option Int
  | .AnySubExpr id => some id
  | .AnyLiteral id => some id
  | .AnyNonLiteral id => some id
  | _ => none

/-- What each wildcard kind requires of the expression it binds. -/
def wildKindOk : RuleExpr → Expr → Prop
  | .AnyLiteral _, e => ∃ num, e = .Literal num
  | .AnyNonLiteral _, e => ∀ num, e ≠ .Literal num
  | _, _ => True

/-- Binding-map extension: every binding of the first map is present
with the same value in the second. -/
def Bext (m m2 : BMap) : Prop :=
  ∀ k v, lookupB m k = some v → lookupB m2 k = some v

/-- Patterns on which `write_expr` is shape-preserving: no unary-plus
node (write-time pass-through) and no unary-minus node whose operand is
a literal or a literal wildcard (write-time negative-literal folding). -/
def okWrite : RuleExpr → Bool
  | .Literal _ => true
  | .AnySubExpr _ => true
  | .AnyLiteral _ => true
  | .AnyNonLiteral _ => true
  | .Binary left _ right => okWrite left && okWrite right
  | .Unary op right =>
    decide (op = .Minus) &&
      (match right with
        | .Literal _ => false
        | .AnyLiteral _ => false
        | _ => okWrite right)
  | .Error => true

/-- Rule sets whose outputs are all templates (no handler callbacks). -/
def handler_free (rules : RuleTransformSet) : Prop :=
  ∀ t ∈ rules, ∃ out, t.out = TransformOut.OutPattern out

/-- Counterexample rule set for the fixed-point claim: two template
rules followed by an always-vetoing handler. -/
def cexRulesC1 : RuleTransformSet :=
  [ ⟨.Literal 1, .OutPattern (.Literal 2)⟩,
    ⟨.Literal 0, .OutPattern (.Literal 1)⟩,
    ⟨.AnySubExpr 1, .OutHandler fun _ => none⟩ ]

/-- Oscillating rule set for the iteration-cap claim. -/
def oscRules : RuleTransformSet :=
  [ ⟨.Literal 0, .OutPattern (.Literal 1)⟩,
    ⟨.Literal 1, .OutPattern (.Literal 0)⟩ ]

/-! ## Tokens and lexer (derivative-calculator)

The derivative-calculator lexer.rs is not in the source tree; tokens,
binding powers and the string lexer are modelled from the spec
(sections 4.1 and 4.2): `Number` from `[0-9.]+` (a failed numeric parse
produces `Error`), `Identifier` from `[A-Za-z]+`, single-character
punctuation, `**` aliasing `^`, whitespace skipped, unknown characters
emitting `Error`; infix binding powers `+ -` (1,2), `* /` (3,4),
`^ **` (6,5); prefix binding power 8 for `+ -`.  `Eof` is the
end-of-input sentinel the parser substitutes for an exhausted lexer. -/

/-- Modelled from the spec: the token type of the missing
derivative-calculator lexer.rs (spec section 4.1). -/
inductive Token where
  | Number (num : ℚ)
  | Identifier (ident : String)
  | Plus
  | Minus
  | Asterisk
  | Slash
  | Exponent
  | OpenParen
  | CloseParen
  | Eof
  | Error
  deriving DecidableEq

/-- Modelled from the spec: `Token::get_infix_bp` (spec section 4.2). -/
def Token.get_infix_bp : Token → Int × Int
  | .Plus => (1, 2)
  | .Minus => (1, 2)
  | .Asterisk => (3, 4)
  | .Slash => (3, 4)
  | .Exponent => (6, 5)
  | _ => (-1, -1)

/-- Modelled from the spec: `Token::get_prefix_bp` (spec section 4.2);
the source returns `((), i32)`, modelled as the `i32` alone. -/
def Token.get_prefix_bp : Token → Int
  | .Plus => 8
  | .Minus => 8
  | _ => -1

/-- `TryFrom<Token> for BinOpKind` (derivative-calculator parser.rs
lines 13-26). -/
def try_into_bin : Token → Option BinOpKind
  | .Plus => some .Plus
  | .Minus => some .Minus
  | .Asterisk => some .Asterisk
  | .Slash => some .Slash
  | .Exponent => some .Exponent
  | _ => none

/-- `TryFrom<Token> for UnaryOpKind` (derivative-calculator parser.rs
lines 49-58): only `Minus` converts. -/
def try_into_unary : Token → Option UnaryOpKind
  | .Minus => some .Minus
  | _ => none

/-! ## Parser state and Pratt parser (derivative-calculator parser.rs) -/

/-- The mutable state of `Parser`: the one-token lookahead
`current_tok`, the remaining lexer tokens, and the error list. -/
structure PState where
  current_tok : Token
  lexer : List Token
  errors : List String
  deriving DecidableEq

/-- `Parser::eat_tok` (parser.rs lines 238-242): returns the current
token and advances, substituting `Eof` when the lexer is exhausted. -/
def eat_tok (st : PState) : Token × PState :=
  (st.current_tok, ⟨st.lexer.headD Token.Eof, st.lexer.tail, st.errors⟩)

/-- `self.errors.push(msg)`. -/
def push_err (st : PState) (msg : String) : PState :=
  ⟨st.current_tok, st.lexer, st.errors ++ [msg]⟩

/-- The parser state holding a token list: current token is the head
(or `Eof`), the rest is the tail. -/
def stateOf (ts : List Token) (errs : List String) : PState :=
  ⟨ts.headD Token.Eof, ts.tail, errs⟩

mutual

/-- `Parser::parse_atom` (parser.rs lines 177-190), with a fuel
argument for termination; exhausted fuel yields `.error "fuel"`, which
the fuel supplied by `parse_tokens` never triggers. -/
def parse_atom : Nat → PState → Except String (Expr × PState)
  | 0, _ => .error ("fuel")
  | fuel + 1, st =>
    match eat_tok st with
    | (.Number num, st1) => .ok (.Literal num, st1)
    | (.Identifier ident, st1) => .ok (.Identifier ident, st1)
    | (.OpenParen, st1) =>
      (match parse_expr_bp fuel 0 st1 with
        | .ok (e, st2) =>
          (match eat_tok st2 with
            | (.CloseParen, st3) => .ok (e, st3)
            | (_, st3) =>
              .ok (.Error, push_err st3 ("unexpected token, expected a '(' token")))
        | .error msg => .error msg)
    | (_, st1) => .ok (.Error, push_err st1 ("unexpected token, expected an expression"))

/-- The `let mut left = match self.current_tok.get_prefix_bp() ...`
block of `parse_expr_bp` (parser.rs lines 193-211): prefix parsing with
the parse-time fold of a negated literal; a non-`Minus` prefix operator
hits the `.expect` panic, modelled as `.error`. -/
def parse_left : Nat → PState → Except String (Expr × PState)
  | 0, _ => .error ("fuel")
  | fuel + 1, st =>
    if st.current_tok.get_prefix_bp = -1 then parse_atom fuel st
    else
      match try_into_unary (eat_tok st).1 with
      | none => .error ("non negative bp should be valid unary op")
      | some prefix_op =>
        (match parse_expr_bp fuel st.current_tok.get_prefix_bp (eat_tok st).2 with
          | .ok (right, st2) =>
            (match right with
              | .Literal num => .ok (.Literal (num * (-1)), st2)
              | _ => .ok (.Unary prefix_op right, st2))
          | .error msg => .error msg)

/-- The trailing `loop` of `parse_expr_bp` (parser.rs lines 213-230). -/
def parse_loop : Nat → Int → Expr → PState → Except String (Expr × PState)
  | 0, _, _, _ => .error ("fuel")
  | fuel + 1, min_bp, left, st =>
    if (st.current_tok.get_infix_bp).1 < min_bp then .ok (left, st)
    else
      match try_into_bin (eat_tok st).1 with
      | none => .error ("non negative bp should be valid binop")
      | some bin_op =>
        (match parse_expr_bp fuel (st.current_tok.get_infix_bp).2 (eat_tok st).2 with
          | .ok (right, st2) => parse_loop fuel min_bp (.Binary left bin_op right) st2
          | .error msg => .error msg)

/-- `Parser::parse_expr_bp` (parser.rs lines 192-233): the prefix/atom
block followed by the infix loop. -/
def parse_expr_bp : Nat → Int → PState → Except String (Expr × PState)
  | 0, _, _ => .error ("fuel")
  | fuel + 1, min_bp, st =>
    match parse_left fuel st with
    | .ok (left, st1) => parse_loop fuel min_bp left st1
    | .error msg => .error msg

end

/-- `impl From<T> for Parser<T>` (parser.rs lines 143-158): pulls the
first token eagerly and panics — modelled as `none` — when the lexer
yields no tokens. -/
def parser_from (ts : List Token) : Option PState :=
  match ts with
  | [] => none
  | t :: rest => some ⟨t, rest, []⟩

/-- `Parser::from` followed by `Parser::parse` (parser.rs lines
164-170): parse an expression, then require the `Eof` sentinel,
recording "unexpected token" on a trailing token.  Returns the parsed
tree and the accumulated error strings. -/
def parse_tokens (ts : List Token) : Except String (Expr × List String) :=
  match parser_from ts with
  | none => .error ("there should be at least 1 element in lexer")
  | some st =>
    match parse_expr_bp (8 * ts.length + 16) 0 st with
    | .ok (e, st2) =>
      (match eat_tok st2 with
        | (.Eof, st3) => .ok (e, st3.errors)
        | (_, st3) => .ok (e, (push_err st3 ("unexpected token")).errors))
    | .error msg => .error msg

/-! ## String lexer and number parsing/formatting -/

/-- The character class `[0-9.]` of the `Number` token regex. -/
def isDigitDot (c : Char) : Bool := c.isDigit || c = '.'

/-- Numeric value of a digit character. -/
def digitVal (c : Char) : Nat := c.toNat - 48

/-- Value of a big-endian digit string. -/
def natVal (cs : List Char) : Nat :=
  cs.foldl (fun a c => 10 * a + digitVal c) 0

/-- Modelled from the spec: `f64::from_str` on a `[0-9.]+` slice.  The
forms `d+`, `d+.d*` and `.d+` parse to their exact decimal value; a
second dot or a lone dot fails (yielding the `Error` token). -/
def numParse (cs : List Char) : Option ℚ :=
  let int := cs.takeWhile Char.isDigit
  let rest := cs.dropWhile Char.isDigit
  match rest with
  | [] => if int.isEmpty then none else some ((natVal int : ℕ) : ℚ)
  | '.' :: frac =>
    if frac.all Char.isDigit && !(int.isEmpty && frac.isEmpty) then
      some (((natVal int : ℕ) : ℚ) + ((natVal frac : ℕ) : ℚ) / 10 ^ frac.length)
    else none
  | _ => none

/-- Decimal exponent of a rational: when the denominator is of the
form `2^a * 5^b` — as every value produced by `numParse` is — the
denominator divides `10 ^ decExp q` with `decExp q = max a b`. -/
def decExp (q : ℚ) : Nat :=
  max ((Nat.primeFactorsList q.den).count 2) ((Nat.primeFactorsList q.den).count 5)

/-- Scaled mantissa `q * 10 ^ decExp q` of a non-negative decimal. -/
def numMantissa (q : ℚ) : Nat :=
  q.num.toNat * (10 ^ decExp q / q.den)

/-- Big-endian decimal digit characters of a natural number. -/
def natChars (n : Nat) : List Char :=
  if n = 0 then ['0'] else ((Nat.digits 10 n).map Nat.digitChar).reverse

/-- Exactly `k` decimal digit characters of `x` (mod `10 ^ k`),
zero-padded on the left. -/
def padChars : Nat → Nat → List Char
  | 0, _ => []
  | k + 1, x => padChars k (x / 10) ++ [Nat.digitChar (x % 10)]

/-- Modelled from the spec: the Rust `{}` display of a non-negative
`f64` holding an exact decimal value — the integer digits, and when the
value has a fractional part a dot followed by its decimal digits. -/
def numFormat (q : ℚ) : List Char :=
  if decExp q = 0 then natChars (numMantissa q)
  else
    natChars (numMantissa q / 10 ^ decExp q) ++
      '.' :: padChars (decExp q) (numMantissa q % 10 ^ decExp q)

/-- Modelled from the spec: one step of the derivative-calculator
lexer over a character list (spec section 4.1), maximal-munch with
whitespace skipping.  The fuel argument (one unit per character) makes
the recursion structural; `lexChars` supplies `cs.length`, which always
suffices because every step consumes at least one character. -/
def lexCharsAux : Nat → List Char → List Token
  | 0, _ => []
  | _ + 1, [] => []
  | fuel + 1, c :: cs =>
    if c = ' ' ∨ c = Char.ofNat 9 ∨ c = Char.ofNat 10 ∨ c = Char.ofNat 12 then
      lexCharsAux fuel cs
    else if c = '(' then Token.OpenParen :: lexCharsAux fuel cs
    else if c = ')' then Token.CloseParen :: lexCharsAux fuel cs
    else if c = '+' then Token.Plus :: lexCharsAux fuel cs
    else if c = '-' then Token.Minus :: lexCharsAux fuel cs
    else if c = '/' then Token.Slash :: lexCharsAux fuel cs
    else if c = '^' then Token.Exponent :: lexCharsAux fuel cs
    else if c = '*' then
      if cs.head? = some '*' then Token.Exponent :: lexCharsAux fuel cs.tail
      else Token.Asterisk :: lexCharsAux fuel cs
    else if isDigitDot c then
      (match numParse (c :: cs.takeWhile isDigitDot) with
        | some num => Token.Number num
        | none => Token.Error) :: lexCharsAux fuel (cs.dropWhile isDigitDot)
    else if c.isAlpha then
      Token.Identifier (String.mk (c :: cs.takeWhile Char.isAlpha)) ::
        lexCharsAux fuel (cs.dropWhile Char.isAlpha)
    else Token.Error :: lexCharsAux fuel cs

/-- Modelled from the spec: the derivative-calculator lexer. -/
def lexChars (cs : List Char) : List Token := lexCharsAux cs.length cs

/-- Lex an input string. -/
def lexStr (s : String) : List Token := lexChars s.data

/-- Full pipeline entry: lex then parse. -/
def parse_str (s : String) : Except String (Expr × List String) :=
  parse_tokens (lexStr s)

/-- The input-handling slice of `add_item` (app/src/app.rs lines
93-104): probe the token stream with a cloned lexer, report
"no input found, skipping" when it is empty, and otherwise construct
the parser on the original stream and parse. -/
def add_item (input : String) : Except String (Expr × List String) :=
  match lexStr input with
  | [] => .error ("no input found, skipping")
  | t :: rest => parse_tokens (t :: rest)

/-! ## Canonical formatter (derivative-calculator parser.rs, Display) -/

/-- Display character of a binary operator. -/
def opChar : BinOpKind → Char
  | .Plus => '+'
  | .Minus => '-'
  | .Asterisk => '*'
  | .Slash => '/'
  | .Exponent => '^'

/-- Display character of a unary operator. -/
def uopChar : UnaryOpKind → Char
  | .Plus => '+'
  | .Minus => '-'

/-- `impl fmt::Display for Expr` (derivative-calculator parser.rs lines
93-110) over character lists: literals display their decimal value,
negative ones parenthesised; binary nodes as `(l op r)`; unary nodes as
`(op r)`; `Error` as `err`. -/
def fmtChars : Expr → List Char
  | .Literal num =>
    if 0 ≤ num then numFormat num
    else '(' :: '-' :: (numFormat (-num) ++ [')'])
  | .Identifier ident => ident.data
  | .Binary left op right =>
    '(' :: (fmtChars left ++ ' ' :: opChar op :: ' ' :: (fmtChars right ++ [')']))
  | .Unary op right => '(' :: uopChar op :: (fmtChars right ++ [')'])
  | .Error => ['e', 'r', 'r']

/-- The canonical formatter as a string. -/
def fmtExpr (e : Expr) : String := String.mk (fmtChars e)

/-- Lexer token of a binary operator character. -/
def opTok : BinOpKind → Token
  | .Plus => .Plus
  | .Minus => .Minus
  | .Asterisk => .Asterisk
  | .Slash => .Slash
  | .Exponent => .Exponent

/-- Lexer token of a unary operator character. -/
def uopTok : UnaryOpKind → Token
  | .Plus => .Plus
  | .Minus => .Minus

/-- The token stream the formatter output lexes to. -/
def toksOf : Expr → List Token
  | .Literal num =>
    if 0 ≤ num then [.Number num]
    else [.OpenParen, .Minus, .Number (-num), .CloseParen]
  | .Identifier ident => [.Identifier ident]
  | .Binary left op right =>
    .OpenParen :: (toksOf left ++ opTok op :: (toksOf right ++ [.CloseParen]))
  | .Unary op right => .OpenParen :: uopTok op :: (toksOf right ++ [.CloseParen])
  | .Error => [.Identifier ("err")]

/-! ## Well-formedness predicates for the round-trip -/

/-- Tokens a string lexes to: numbers are non-negative exact decimals,
identifiers are non-empty alphabetic strings. -/
def TokWf : Token → Prop
  | .Number num => 0 ≤ num ∧ ∃ k : Nat, num.den ∣ 10 ^ k
  | .Identifier ident => ident.data ≠ [] ∧ ∀ c ∈ ident.data, c.isAlpha
  | _ => True

/-- All tokens reachable from a parser state are well formed. -/
def StWf (st : PState) : Prop :=
  TokWf st.current_tok ∧ ∀ t ∈ st.lexer, TokWf t

/-- Parser-output invariants: literal values are exact decimals,
identifiers are non-empty alphabetic, and unary nodes are minus applied
to a non-literal (the parser folds minus-literal at parse time). -/
def EWf : Expr → Prop
  | .Literal num => ∃ k : Nat, num.den ∣ 10 ^ k
  | .Identifier ident => ident.data ≠ [] ∧ ∀ c ∈ ident.data, c.isAlpha
  | .Binary left _ right => EWf left ∧ EWf right
  | .Unary op right => op = .Minus ∧ (∀ num, right ≠ .Literal num) ∧ EWf right
  | .Error => True

/-- No `Error` node anywhere in the tree. -/
def noErr : Expr → Bool
  | .Literal _ => true
  | .Identifier _ => true
  | .Binary left _ right => noErr left && noErr right
  | .Unary _ right => noErr right
  | .Error => false

/-! ## Matcher lemmas -/

theorem lookupB_insertB (m : BMap) (id k : Int) (e : Expr) :
    lookupB (insertB m id e) k = if k = id then some e else lookupB m k := by
  induction m with
  | nil =>
    simp only [insertB, lookupB]
    split_ifs <;> first | rfl | omega
  | cons hd tl ih =>
    obtain ⟨k0, v0⟩ := hd
    simp only [insertB]
    by_cases h0 : k0 = id
    · subst h0
      simp only [if_pos rfl, lookupB]
      split_ifs <;> first | rfl | omega
    · rw [if_neg h0]
      simp only [lookupB, ih]
      split_ifs <;> first | rfl | omega

theorem Bext_refl (m : BMap) : Bext m m := fun _ _ h => h

theorem Bext_trans {a b c : BMap} (h1 : Bext a b) (h2 : Bext b c) : Bext a c :=
  fun k v hv => h2 k v (h1 k v hv)

theorem insert_added_match_true (m : BMap) (id : Int) (e : Expr) (m2 : BMap)
    (h : insert_added_match m id e = (true, m2)) :
    lookupB m2 id = some e ∧ Bext m m2 := by
  cases hl : lookupB m id with
  | none =>
    simp only [insert_added_match, hl] at h
    injection h with h1 h2
    subst h2
    refine ⟨by rw [lookupB_insertB, if_pos rfl], ?_⟩
    intro k v hv
    rw [lookupB_insertB]
    by_cases hk : k = id
    · subst hk; rw [hl] at hv; exact absurd hv (by simp)
    · rw [if_neg hk]; exact hv
  | some existing =>
    simp only [insert_added_match, hl] at h
    by_cases he : existing = e
    · rw [if_pos he] at h
      injection h with h1 h2
      subst h2
      refine ⟨by rw [lookupB_insertB, if_pos rfl], ?_⟩
      intro k v hv
      rw [lookupB_insertB]
      by_cases hk : k = id
      · subst hk
        rw [hl] at hv
        obtain rfl : existing = v := by injection hv
        rw [if_pos rfl, he]
      · rw [if_neg hk]; exact hv
    · rw [if_neg he] at h
      injection h with h1 h2
      exact Bool.noConfusion h1

theorem match_inner_preserve (p : RuleExpr) :
    ∀ (e : Expr) (m m2 : BMap), match_expr_inner p e m = (true, m2) → Bext m m2 := by
  induction p with
  | Literal num_rule =>
    intro e m m2 hm
    have h2 : (match_expr_inner (.Literal num_rule) e m).2 = m := by cases e <;> rfl
    rw [hm] at h2
    exact h2 ▸ Bext_refl m
  | AnySubExpr i =>
    intro e m m2 hm
    exact (insert_added_match_true m i e m2 hm).2
  | AnyLiteral i =>
    intro e m m2 hm
    cases e <;> simp only [match_expr_inner] at hm
    case Literal num => exact (insert_added_match_true m i _ m2 hm).2
    all_goals exact absurd hm (by simp)
  | AnyNonLiteral i =>
    intro e m m2 hm
    cases e <;> simp only [match_expr_inner] at hm
    case Identifier s => exact (insert_added_match_true m i _ m2 hm).2
    case Binary l o r => exact (insert_added_match_true m i _ m2 hm).2
    case Unary o r => exact (insert_added_match_true m i _ m2 hm).2
    case Error => exact (insert_added_match_true m i _ m2 hm).2
    exact absurd hm (by simp)
  | Binary left_rule op_rule right_rule ihl ihr =>
    intro e m m2 hm
    cases e <;> simp only [match_expr_inner] at hm
    case Binary l o r =>
      by_cases ho : o = op_rule
      · rw [if_pos ho] at hm
        rcases hml : match_expr_inner left_rule l m with ⟨b1, m1⟩
        cases b1 with
        | false =>
          simp only [hml] at hm
          exact absurd hm (by simp)
        | true =>
          simp only [hml] at hm
          exact Bext_trans (ihl l m m1 hml) (ihr r m1 m2 hm)
      · rw [if_neg ho] at hm
        exact absurd hm (by simp)
    all_goals exact absurd hm (by simp)
  | Unary op_rule right_rule ihr =>
    intro e m m2 hm
    cases e <;> simp only [match_expr_inner] at hm
    case Unary o r =>
      by_cases ho : o = op_rule
      · rw [if_pos ho] at hm
        exact ihr r m m2 hm
      · rw [if_neg ho] at hm
        exact absurd hm (by simp)
    all_goals exact absurd hm (by simp)
  | Error =>
    intro e m m2 hm
    exact absurd hm (by simp [match_expr_inner])

theorem exprAt_nil (e : Expr) : exprAt e [] = some e := by cases e <;> rfl

theorem patAt_nil (p : RuleExpr) : patAt p [] = some p := by cases p <;> rfl

theorem match_inner_sound (p : RuleExpr) :
    ∀ (e : Expr) (m m2 : BMap) (path : List Dir) (w : RuleExpr) (id : Int),
      match_expr_inner p e m = (true, m2) → patAt p path = some w → wildId w = some id →
      ∃ sub, exprAt e path = some sub ∧ lookupB m2 id = some sub ∧ wildKindOk w sub := by
  induction p with
  | Literal num_rule =>
    intro e m m2 path w id hm hp hw
    cases path with
    | nil =>
      obtain rfl : RuleExpr.Literal num_rule = w := by simpa [patAt] using hp
      exact absurd hw (by simp [wildId])
    | cons d path => cases d <;> simp [patAt] at hp
  | AnySubExpr i =>
    intro e m m2 path w id hm hp hw
    cases path with
    | nil =>
      obtain rfl : RuleExpr.AnySubExpr i = w := by simpa [patAt] using hp
      obtain rfl : i = id := by simpa [wildId] using hw
      simp only [match_expr_inner] at hm
      exact ⟨e, exprAt_nil e, (insert_added_match_true m i e m2 hm).1, trivial⟩
    | cons d path => cases d <;> simp [patAt] at hp
  | AnyLiteral i =>
    intro e m m2 path w id hm hp hw
    cases path with
    | cons d path => cases d <;> simp [patAt] at hp
    | nil =>
      obtain rfl : RuleExpr.AnyLiteral i = w := by simpa [patAt] using hp
      obtain rfl : i = id := by simpa [wildId] using hw
      cases e <;> simp only [match_expr_inner] at hm
      case Literal num =>
        exact ⟨.Literal num, exprAt_nil _, (insert_added_match_true m i _ m2 hm).1, ⟨num, rfl⟩⟩
      all_goals exact absurd hm (by simp)
  | AnyNonLiteral i =>
    intro e m m2 path w id hm hp hw
    cases path with
    | cons d path => cases d <;> simp [patAt] at hp
    | nil =>
      obtain rfl : RuleExpr.AnyNonLiteral i = w := by simpa [patAt] using hp
      obtain rfl : i = id := by simpa [wildId] using hw
      cases e <;> simp only [match_expr_inner] at hm
      case Literal num => exact absurd hm (by simp)
      case Identifier s =>
        exact ⟨.Identifier s, exprAt_nil _, (insert_added_match_true m i _ m2 hm).1, by intro num h; cases h⟩
      case Binary l o r =>
        exact ⟨.Binary l o r, exprAt_nil _, (insert_added_match_true m i _ m2 hm).1, by intro num h; cases h⟩
      case Unary o r =>
        exact ⟨.Unary o r, exprAt_nil _, (insert_added_match_true m i _ m2 hm).1, by intro num h; cases h⟩
      case Error =>
        exact ⟨.Error, exprAt_nil _, (insert_added_match_true m i _ m2 hm).1, by intro num h; cases h⟩
  | Binary left_rule op_rule right_rule ihl ihr =>
    intro e m m2 path w id hm hp hw
    cases e <;> simp only [match_expr_inner] at hm
    case Binary l o r =>
      by_cases ho : o = op_rule
      · rw [if_pos ho] at hm
        rcases hml : match_expr_inner left_rule l m with ⟨b1, m1⟩
        cases b1 with
        | false =>
          simp only [hml] at hm
          exact absurd hm (by simp)
        | true =>
          simp only [hml] at hm
          cases path with
          | nil =>
            obtain rfl : RuleExpr.Binary left_rule op_rule right_rule = w := by
              simpa [patAt] using hp
            exact absurd hw (by simp [wildId])
          | cons d path =>
            cases d with
            | l =>
              rw [show patAt (RuleExpr.Binary left_rule op_rule right_rule) (Dir.l :: path) =
                patAt left_rule path from rfl] at hp
              obtain ⟨sub, hs1, hs2, hs3⟩ := ihl l m m1 path w id hml hp hw
              exact ⟨sub, hs1, match_inner_preserve right_rule r m1 m2 hm id sub hs2, hs3⟩
            | r =>
              rw [show patAt (RuleExpr.Binary left_rule op_rule right_rule) (Dir.r :: path) =
                patAt right_rule path from rfl] at hp
              obtain ⟨sub, hs1, hs2, hs3⟩ := ihr r m1 m2 path w id hm hp hw
              exact ⟨sub, hs1, hs2, hs3⟩
      · rw [if_neg ho] at hm
        exact absurd hm (by simp)
    all_goals exact absurd hm (by simp)
  | Unary op_rule right_rule ihr =>
    intro e m m2 path w id hm hp hw
    cases e <;> simp only [match_expr_inner] at hm
    case Unary o r =>
      by_cases ho : o = op_rule
      · rw [if_pos ho] at hm
        cases path with
        | nil =>
          obtain rfl : RuleExpr.Unary op_rule right_rule = w := by simpa [patAt] using hp
          exact absurd hw (by simp [wildId])
        | cons d path =>
          cases d with
          | l => simp [patAt] at hp
          | r =>
            rw [show patAt (RuleExpr.Unary op_rule right_rule) (Dir.r :: path) =
              patAt right_rule path from rfl] at hp
            exact ihr r m m2 path w id hm hp hw
      · rw [if_neg ho] at hm
        exact absurd hm (by simp)
    all_goals exact absurd hm (by simp)
  | Error =>
    intro e m m2 path w id hm hp hw
    exact absurd hm (by simp [match_expr_inner])

theorem okWrite_unary_elim (op : UnaryOpKind) (rr : RuleExpr)
    (h : okWrite (.Unary op rr) = true) :
    op = .Minus ∧ (∀ q, rr ≠ .Literal q) ∧ (∀ i, rr ≠ .AnyLiteral i) ∧ okWrite rr = true := by
  cases rr <;> simp_all [okWrite]

theorem write_expr_unary_minus_default (rr : RuleExpr) (m : BMap)
    (h1 : ∀ q, rr ≠ .Literal q) (h2 : ∀ i, rr ≠ .AnyLiteral i) :
    write_expr (.Unary .Minus rr) m =
      (match write_expr rr m with
        | none => none
        | some right => some (.Unary .Minus right)) := by
  cases rr <;> first
    | rfl
    | (exact absurd rfl (h1 _))
    | (exact absurd rfl (h2 _))

theorem match_write_aux (p : RuleExpr) :
    ∀ (e : Expr) (m m2 m3 : BMap), match_expr_inner p e m = (true, m2) → okWrite p = true →
      Bext m2 m3 → write_expr p m3 = some e := by
  induction p with
  | Literal num_rule =>
    intro e m m2 m3 hm _ _
    cases e <;> simp only [match_expr_inner] at hm
    case Literal num =>
      injection hm with h1 h2
      obtain rfl : num = num_rule := by simpa using h1
      rfl
    all_goals exact absurd hm (by simp)
  | AnySubExpr i =>
    intro e m m2 m3 hm _ hext
    simp only [match_expr_inner] at hm
    have hl := (insert_added_match_true m i e m2 hm).1
    simpa [write_expr] using hext i e hl
  | AnyLiteral i =>
    intro e m m2 m3 hm _ hext
    cases e <;> simp only [match_expr_inner] at hm
    case Literal num =>
      have hl := (insert_added_match_true m i _ m2 hm).1
      simpa [write_expr] using hext i _ hl
    all_goals exact absurd hm (by simp)
  | AnyNonLiteral i =>
    intro e m m2 m3 hm _ hext
    cases e <;> simp only [match_expr_inner] at hm
    case Literal num => exact absurd hm (by simp)
    all_goals
      have hl := (insert_added_match_true m i _ m2 hm).1
      simpa [write_expr] using hext i _ hl
  | Binary left_rule op_rule right_rule ihl ihr =>
    intro e m m2 m3 hm hok hext
    cases e <;> simp only [match_expr_inner] at hm
    case Binary l o r =>
      by_cases ho : o = op_rule
      · rw [if_pos ho] at hm
        rcases hml : match_expr_inner left_rule l m with ⟨b1, m1⟩
        cases b1 with
        | false =>
          simp only [hml] at hm
          exact absurd hm (by simp)
        | true =>
          simp only [hml] at hm
          simp only [okWrite, Bool.and_eq_true] at hok
          have hwl := ihl l m m1 m3 hml hok.1
            (Bext_trans (match_inner_preserve right_rule r m1 m2 hm) hext)
          have hwr := ihr r m1 m2 m3 hm hok.2 hext
          subst ho
          simp [write_expr, hwl, hwr]
      · rw [if_neg ho] at hm
        exact absurd hm (by simp)
    all_goals exact absurd hm (by simp)
  | Unary op_rule right_rule ihr =>
    intro e m m2 m3 hm hok hext
    cases e <;> simp only [match_expr_inner] at hm
    case Unary o r =>
      by_cases ho : o = op_rule
      · rw [if_pos ho] at hm
        obtain ⟨hop, hne1, hne2, hokr⟩ := okWrite_unary_elim op_rule right_rule hok
        subst ho
        subst hop
        have hw := ihr r m m2 m3 hm hokr hext
        rw [write_expr_unary_minus_default right_rule m3 hne1 hne2, hw]
      · rw [if_neg ho] at hm
        exact absurd hm (by simp)
    all_goals exact absurd hm (by simp)
  | Error =>
    intro e m m2 m3 hm _ _
    exact absurd hm (by simp [match_expr_inner])

/-! ## Claim C4: binding coherence of match_expr -/

/-- C4: for every pattern containing two wildcard occurrences with the
same id and every expression, a successful match forces the two
occurrences to stand over structurally equal sub-expressions; in
particular, a candidate differing from an existing binding makes the
whole match return `matched = false` (the contrapositive of this
statement). -/
theorem c4_binding_coherence (p : RuleExpr) (e : Expr) (p1 p2 : List Dir)
    (w1 w2 : RuleExpr) (id : Int)
    (hm : (matchExpr p e).matched = true)
    (hp1 : patAt p p1 = some w1) (hw1 : wildId w1 = some id)
    (hp2 : patAt p p2 = some w2) (hw2 : wildId w2 = some id) :
    ∃ sub, exprAt e p1 = some sub ∧ exprAt e p2 = some sub := by
  rcases hmi : match_expr_inner p e [] with ⟨b, m2⟩
  have hb : b = true := by
    have : (matchExpr p e).matched = b := by simp [matchExpr, hmi]
    rw [this] at hm
    exact hm
  subst hb
  obtain ⟨sub1, hs1, hl1, -⟩ := match_inner_sound p e [] m2 p1 w1 id hmi hp1 hw1
  obtain ⟨sub2, hs2, hl2, -⟩ := match_inner_sound p e [] m2 p2 w2 id hmi hp2 hw2
  obtain rfl : sub1 = sub2 := by rw [hl1] at hl2; injection hl2
  exact ⟨sub1, hs1, hs2⟩

/-- Witness for C4 at the pattern `_1 + _1` matched against `x + x`. -/
theorem c4_binding_coherence_witness :
    ∃ sub,
      exprAt (Expr.Binary (.Identifier ("x")) .Plus (.Identifier ("x"))) [Dir.l] = some sub ∧
      exprAt (Expr.Binary (.Identifier ("x")) .Plus (.Identifier ("x"))) [Dir.r] = some sub :=
  c4_binding_coherence
    (RuleExpr.Binary (.AnySubExpr 1) .Plus (.AnySubExpr 1))
    (Expr.Binary (.Identifier ("x")) .Plus (.Identifier ("x")))
    [Dir.l] [Dir.r] (.AnySubExpr 1) (.AnySubExpr 1) 1
    (by decide) (by decide) (by decide) (by decide) (by decide)

/-! ## Claim C5: wildcard typing invariant -/

/-- C5: in every successful match, an id introduced by an `AnyLiteral`
wildcard is bound to a `Literal`, an id introduced by an
`AnyNonLiteral` wildcard is bound to a non-`Literal`, and an
`AnySubExpr` wildcard binds to any expression whatsoever (including
`Error`), recording it in the bindings. -/
theorem c5_wildcard_typing (p : RuleExpr) (e : Expr) (path : List Dir) (id : Int)
    (hm : (matchExpr p e).matched = true) :
    (patAt p path = some (RuleExpr.AnyLiteral id) →
      ∃ num, lookupB (matchExpr p e).matched_exprs id = some (Expr.Literal num)) ∧
    (patAt p path = some (RuleExpr.AnyNonLiteral id) →
      ∃ sub, lookupB (matchExpr p e).matched_exprs id = some sub ∧
        ∀ num, sub ≠ Expr.Literal num) ∧
    (∀ e2 : Expr, (matchExpr (RuleExpr.AnySubExpr id) e2).matched = true ∧
      lookupB (matchExpr (RuleExpr.AnySubExpr id) e2).matched_exprs id = some e2) := by
  rcases hmi : match_expr_inner p e [] with ⟨b, m2⟩
  have hb : b = true := by
    have : (matchExpr p e).matched = b := by simp [matchExpr, hmi]
    rw [this] at hm
    exact hm
  subst hb
  have hmap : (matchExpr p e).matched_exprs = m2 := by simp [matchExpr, hmi]
  refine ⟨?_, ?_, ?_⟩
  · intro hp
    obtain ⟨sub, -, hl, hk⟩ := match_inner_sound p e [] m2 path _ id hmi hp rfl
    obtain ⟨num, rfl⟩ := hk
    exact ⟨num, hmap ▸ hl⟩
  · intro hp
    obtain ⟨sub, -, hl, hk⟩ := match_inner_sound p e [] m2 path _ id hmi hp rfl
    exact ⟨sub, hmap ▸ hl, hk⟩
  · intro e2
    constructor
    · simp [matchExpr, match_expr_inner, insert_added_match, lookupB]
    · simp [matchExpr, match_expr_inner, insert_added_match, lookupB, lookupB_insertB]

/-- Witness for C5: `_lit1 + _nonlit2` matched against `3 + x`, and a
generic wildcard matched against `Error`. -/
theorem c5_wildcard_typing_witness :
    (∃ num, lookupB (matchExpr (RuleExpr.Binary (.AnyLiteral 1) .Plus (.AnyNonLiteral 2))
        (Expr.Binary (.Literal 3) .Plus (.Identifier ("x")))).matched_exprs 1 =
        some (Expr.Literal num)) ∧
    ((matchExpr (RuleExpr.AnySubExpr 7) Expr.Error).matched = true ∧
      lookupB (matchExpr (RuleExpr.AnySubExpr 7) Expr.Error).matched_exprs 7 =
        some Expr.Error) :=
  ⟨(c5_wildcard_typing
      (RuleExpr.Binary (.AnyLiteral 1) .Plus (.AnyNonLiteral 2))
      (Expr.Binary (.Literal 3) .Plus (.Identifier ("x")))
      [Dir.l] 1 (by decide)).1 (by decide),
    ((c5_wildcard_typing (RuleExpr.AnySubExpr 7) Expr.Error [] 7 (by decide)).2.2 Expr.Error)⟩

/-! ## Claim C6: match/write inverse -/

/-- C6 counterexample: the pattern `-_lit1` (a linear wildcard cover
with no literal/non-literal mismatch) matches `Unary Minus (Literal 5)`
with binding `1 ↦ Literal 5`, yet `write_expr` folds the unary minus
into the literal and returns `Literal (-5)`, which is not structurally
equal to the matched expression. -/
theorem c6_counterexample :
    (matchExpr (RuleExpr.Unary .Minus (.AnyLiteral 1))
        (Expr.Unary .Minus (.Literal 5))).matched = true ∧
    write_expr (RuleExpr.Unary .Minus (.AnyLiteral 1))
        (matchExpr (RuleExpr.Unary .Minus (.AnyLiteral 1))
          (Expr.Unary .Minus (.Literal 5))).matched_exprs =
      some (Expr.Literal (-5)) ∧
    some (Expr.Literal (-5)) ≠ some (Expr.Unary .Minus (.Literal 5)) := by
  refine ⟨by decide, by decide, by decide⟩

/-- C6 as amended: whenever `match(P, E)` succeeds with bindings `B`,
`write(P, B)` is structurally equal to `E`, provided `P` contains no
unary-plus node and no unary-minus node whose operand is a literal or a
literal wildcard (on those nodes `write_expr` folds or elides, changing
the shape).  No linearity assumption is needed: binding coherence
already forces repeated ids to carry structurally equal expressions. -/
theorem c6_match_write_inverse (p : RuleExpr) (e : Expr)
    (hm : (matchExpr p e).matched = true) (hok : okWrite p = true) :
    write_expr p (matchExpr p e).matched_exprs = some e := by
  rcases hmi : match_expr_inner p e [] with ⟨b, m2⟩
  have hb : b = true := by
    have : (matchExpr p e).matched = b := by simp [matchExpr, hmi]
    rw [this] at hm
    exact hm
  subst hb
  have hmap : (matchExpr p e).matched_exprs = m2 := by simp [matchExpr, hmi]
  rw [hmap]
  exact match_write_aux p e [] m2 m2 hmi hok (Bext_refl m2)

/-- Witness for C6 at the pattern `_1 + _lit2` matched against `x + 5`. -/
theorem c6_match_write_inverse_witness :
    write_expr (RuleExpr.Binary (.AnySubExpr 1) .Plus (.AnyLiteral 2))
        (matchExpr (RuleExpr.Binary (.AnySubExpr 1) .Plus (.AnyLiteral 2))
          (Expr.Binary (.Identifier ("x")) .Plus (.Literal 5))).matched_exprs =
      some (Expr.Binary (.Identifier ("x")) .Plus (.Literal 5)) :=
  c6_match_write_inverse
    (RuleExpr.Binary (.AnySubExpr 1) .Plus (.AnyLiteral 2))
    (Expr.Binary (.Identifier ("x")) .Plus (.Literal 5))
    (by decide) (by decide)

/-! ## Claim C10: an Error pattern matches nothing -/

/-- C10: a pattern whose root is `RuleExpr.Error` (as produced when a
rule string fails to parse) matches no expression at all — `match_expr`
returns `matched = false` on every input, including `Expr.Error` — so a
rule with such a pattern never fires: a pass over just that rule leaves
any expression unchanged. -/
theorem c10_error_pattern_matches_nothing :
    ∀ e : Expr, (matchExpr RuleExpr.Error e).matched = false ∧
      ∀ t : TransformOut, run_pass [⟨RuleExpr.Error, t⟩] e = some (e, false) := by
  intro e
  constructor
  · rfl
  · intro t
    rfl

/-! ## Engine lemmas -/

theorem run_pass_aux_hf_true :
    ∀ (rules : RuleTransformSet), handler_free rules →
      ∀ (e e2 : Expr) (f : Bool), run_pass_aux rules e true = some (e2, f) → f = true := by
  intro rules
  induction rules with
  | nil =>
    intro _ e e2 f hr
    simp only [run_pass_aux] at hr
    injection hr with h1
    injection h1 with _ h2
    exact h2.symm
  | cons t ts ih =>
    intro h e e2 f hr
    have hts : handler_free ts := fun t2 ht2 => h t2 (List.mem_cons_of_mem _ ht2)
    obtain ⟨out, hout⟩ := h t (List.mem_cons_self _ _)
    simp only [run_pass_aux, hout] at hr
    by_cases hmt : (matchExpr t.pattern e).matched
    · rw [if_pos hmt] at hr
      cases hwr : write_expr out (matchExpr t.pattern e).matched_exprs with
      | none => simp [hwr] at hr
      | some e3 =>
        simp only [hwr] at hr
        exact ih hts e3 e2 f hr
    · rw [if_neg hmt] at hr
      exact ih hts e e2 f hr

theorem run_pass_aux_hf_false :
    ∀ (rules : RuleTransformSet), handler_free rules →
      ∀ (e e2 : Expr) (flag : Bool), run_pass_aux rules e flag = some (e2, false) →
        e2 = e ∧ flag = false := by
  intro rules
  induction rules with
  | nil =>
    intro _ e e2 flag hr
    simp only [run_pass_aux] at hr
    injection hr with h1
    injection h1 with h2 h3
    exact ⟨h2.symm, h3⟩
  | cons t ts ih =>
    intro h e e2 flag hr
    have hts : handler_free ts := fun t2 ht2 => h t2 (List.mem_cons_of_mem _ ht2)
    obtain ⟨out, hout⟩ := h t (List.mem_cons_self _ _)
    simp only [run_pass_aux, hout] at hr
    by_cases hmt : (matchExpr t.pattern e).matched
    · rw [if_pos hmt] at hr
      cases hwr : write_expr out (matchExpr t.pattern e).matched_exprs with
      | none => simp [hwr] at hr
      | some e3 =>
        simp only [hwr] at hr
        exact absurd (run_pass_aux_hf_true ts hts e3 e2 false hr) (by simp)
    · rw [if_neg hmt] at hr
      exact ih hts e e2 flag hr

theorem apply_rules_aux_fixed :
    ∀ (fuel : Nat) (rules : RuleTransformSet), handler_free rules →
      ∀ (e r : Expr) (n : Nat), apply_rules_aux rules fuel e = some (r, n, false) →
        run_pass rules r = some (r, false) := by
  intro fuel
  induction fuel with
  | zero =>
    intro rules h e r n ha
    rw [apply_rules_aux] at ha
    cases hr : run_pass rules e with
    | none => rw [hr] at ha; exact absurd ha (by simp)
    | some p =>
      obtain ⟨e2, flag⟩ := p
      rw [hr] at ha
      cases flag with
      | false =>
        simp only at ha
        injection ha with h1
        injection h1 with h2 h3
        obtain rfl : e2 = r := h2
        obtain rfl : e2 = e := (run_pass_aux_hf_false rules h e e2 false hr).1
        exact hr
      | true =>
        simp only at ha
        injection ha with h1
        injection h1 with h2 h3
        injection h3 with h4 h5
        exact Bool.noConfusion h5
  | succ fuel ih =>
    intro rules h e r n ha
    rw [apply_rules_aux] at ha
    cases hr : run_pass rules e with
    | none => rw [hr] at ha; exact absurd ha (by simp)
    | some p =>
      obtain ⟨e2, flag⟩ := p
      rw [hr] at ha
      cases flag with
      | false =>
        simp only at ha
        injection ha with h1
        injection h1 with h2 h3
        obtain rfl : e2 = r := h2
        obtain rfl : e2 = e := (run_pass_aux_hf_false rules h e e2 false hr).1
        exact hr
      | true =>
        simp only at ha
        cases ha2 : apply_rules_aux rules fuel e2 with
        | none => rw [ha2] at ha; exact absurd ha (by simp)
        | some q =>
          obtain ⟨r2, n2, c2⟩ := q
          rw [ha2] at ha
          simp only at ha
          injection ha with h1
          injection h1 with ha1 h2
          injection h2 with hb1 hc1
          subst ha1
          subst hc1
          exact ih rules h e2 _ n2 ha2

theorem apply_rules_aux_count :
    ∀ (fuel : Nat) (rules : RuleTransformSet) (e r : Expr) (n : Nat) (c : Bool),
      apply_rules_aux rules fuel e = some (r, n, c) → n ≤ fuel + 1 := by
  intro fuel
  induction fuel with
  | zero =>
    intro rules e r n c ha
    rw [apply_rules_aux] at ha
    cases hr : run_pass rules e with
    | none => rw [hr] at ha; exact absurd ha (by simp)
    | some p =>
      obtain ⟨e2, flag⟩ := p
      rw [hr] at ha
      cases flag with
      | false =>
        injection ha with h1
        injection h1 with h2 h3
        injection h3 with h4 h5
        omega
      | true =>
        simp only at ha
        injection ha with h1
        injection h1 with h2 h3
        injection h3 with h4 h5
        omega
  | succ fuel ih =>
    intro rules e r n c ha
    rw [apply_rules_aux] at ha
    cases hr : run_pass rules e with
    | none => rw [hr] at ha; exact absurd ha (by simp)
    | some p =>
      obtain ⟨e2, flag⟩ := p
      rw [hr] at ha
      cases flag with
      | false =>
        injection ha with h1
        injection h1 with h2 h3
        injection h3 with h4 h5
        omega
      | true =>
        simp only at ha
        cases ha2 : apply_rules_aux rules fuel e2 with
        | none => rw [ha2] at ha; exact absurd ha (by simp)
        | some q =>
          obtain ⟨r2, n2, c2⟩ := q
          rw [ha2] at ha
          simp only at ha
          injection ha with h1
          injection h1 with ha1 h2
          injection h2 with hb1 hc1
          have := ih rules e2 r2 n2 c2 ha2
          omega

/-! ## Claim C1: fixed point on normal exit -/

/-- C1 counterexample: in `cexRulesC1` the second rule rewrites
`Literal 0` to `Literal 1`, after which the trailing handler matches
and returns `None`, resetting `last_iter_transformed`; the loop
therefore exits after a pass that did change the expression and
without the cap warning, yet one further full pass rewrites the result
(`Literal 1`) to `Literal 2`, so the returned expression is not a fixed
point of the rule set. -/
theorem c1_counterexample :
    apply_rules cexRulesC1 (Expr.Literal 0) = some (Expr.Literal 1, 1, false) ∧
    run_pass cexRulesC1 (Expr.Literal 1) = some (Expr.Literal 2, false) ∧
    Expr.Literal 2 ≠ Expr.Literal 1 :=
  ⟨by decide, by decide, by decide⟩

/-- C1 as amended: for rule sets consisting only of pattern → template
rules (no handler callbacks), whenever `apply_rules` returns without
exceeding the iteration cap the returned expression is a fixed point of
the rule set — one further full in-order pass over the rules produces
no change.  With handlers, a vetoing handler late in a pass overwrites
the pass's change flag, so the loop can stop early (see the
counterexample). -/
theorem c1_fixed_point (rules : RuleTransformSet) (e r : Expr) (n : Nat)
    (hf : handler_free rules) (h : apply_rules rules e = some (r, n, false)) :
    run_pass rules r = some (r, false) :=
  apply_rules_aux_fixed 501 rules hf e r n h

/-- Witness for C1 on a one-rule template set. -/
theorem c1_fixed_point_witness :
    run_pass [⟨RuleExpr.Literal 0, TransformOut.OutPattern (RuleExpr.Literal 0)⟩]
      (Expr.Literal 5) = some (Expr.Literal 5, false) :=
  c1_fixed_point _ (Expr.Literal 5) (Expr.Literal 5) 1
    (by
      intro t ht
      simp only [List.mem_singleton] at ht
      subst ht
      exact ⟨RuleExpr.Literal 0, rfl⟩)
    (by decide)

/-! ## Claim C3: iteration cap -/

set_option maxRecDepth 8000 in
/-- C3 counterexample: on the oscillating rule set the pass loop of
`apply_rules` executes 502 passes — not at most 500 — before the cap
check `i > 500` fires (the counter starts at 0 and is checked after
each transforming pass). -/
theorem c3_counterexample :
    apply_rules oscRules (Expr.Literal 0) = some (Expr.Literal 0, 502, true) ∧
    ¬ (502 : Nat) ≤ 500 :=
  ⟨by decide, by omega⟩

/-- C3 as amended: `apply_rules` always terminates, executing at most
502 passes of its rule-pass loop (the source checks `i > 500` after
each transforming pass with `i` starting at 0, so two passes beyond the
nominal `MAX_ITERATIONS_PER_APPLY = 500` can run); when the cap is
exceeded the warning flag is set and the current partially rewritten
expression is returned. -/
theorem c3_iteration_bound (rules : RuleTransformSet) (e r : Expr) (n : Nat) (c : Bool)
    (h : apply_rules rules e = some (r, n, c)) : n ≤ 502 := by
  have := apply_rules_aux_count 501 rules e r n c h
  omega

/-- Witness for C3 on the empty rule set. -/
theorem c3_iteration_bound_witness :
    apply_rules [] (Expr.Literal 0) = some (Expr.Literal 0, 1, false) ∧ (1 : Nat) ≤ 502 :=
  ⟨by decide, c3_iteration_bound [] (Expr.Literal 0) (Expr.Literal 0) 1 false (by decide)⟩

/-! ## Claim C2: derivative of identifiers -/

/-- C2 counterexample: the rule-based `derivative` maps the identifier
`y` (≠ `x`) to `Expr.Error` — the identifier handler vetoes and the
catch-all rule fires — not to `Literal 0` as the claim states. -/
theorem c2_counterexample :
    derivative (Expr.Identifier ("y")) = Expr.Error ∧ Expr.Error ≠ Expr.Literal 0 :=
  ⟨by decide, by decide⟩

/-- C2 as amended: `derivative` reduces `Identifier "x"` to the literal
1; for every identifier other than `"x"` the identifier rule returns
"no change", no other rule shape matches an identifier, and the
catch-all rule `_1 → Error` produces `Expr.Error` (the legacy
`passes/derivative.rs` returned `Literal 0` here, but the rule-based
derivative that ships returns `Error`). -/
theorem c2_derivative_identifier :
    derivative (Expr.Identifier ("x")) = Expr.Literal 1 ∧
    ∀ s : String, s ≠ "x" → derivative (Expr.Identifier s) = Expr.Error := by
  constructor
  · decide
  · intro s hs
    simp [derivative, exprSize, derivativeAux, deriv_rules, apply_rules_once,
      matchExpr, match_expr_inner, insert_added_match, lookupB, insertB, hs]

/-- Witness for C2 at the identifier `y`. -/
theorem c2_derivative_identifier_witness :
    derivative (Expr.Identifier ("x")) = Expr.Literal 1 ∧
    derivative (Expr.Identifier ("y")) = Expr.Error :=
  ⟨c2_derivative_identifier.1, c2_derivative_identifier.2 "y" (by decide)⟩

/-! ## Digit-string lemmas -/

theorem digitVal_digitChar (d : Nat) (h : d < 10) : digitVal (Nat.digitChar d) = d := by
  interval_cases d <;> rfl

theorem digitChar_isDigit (d : Nat) (h : d < 10) : (Nat.digitChar d).isDigit = true := by
  interval_cases d <;> rfl

theorem natVal_go (L : List Nat) :
    ∀ a : Nat, (∀ d ∈ L, d < 10) →
      List.foldl (fun x c => 10 * x + digitVal c) a ((L.map Nat.digitChar).reverse) =
        a * 10 ^ L.length + Nat.ofDigits 10 L := by
  induction L with
  | nil => intro a _; simp [Nat.ofDigits_nil]
  | cons d t ih =>
    intro a h
    have hd : d < 10 := h d (by simp)
    have ht : ∀ x ∈ t, x < 10 := fun x hx => h x (by simp [hx])
    simp only [List.map_cons, List.reverse_cons, List.foldl_append, List.foldl_cons,
      List.foldl_nil]
    rw [ih a ht, digitVal_digitChar d hd, Nat.ofDigits_cons]
    simp [List.length_cons]
    ring

theorem natVal_natChars (n : Nat) : natVal (natChars n) = n := by
  by_cases h : n = 0
  · subst h; rfl
  · unfold natVal natChars
    rw [if_neg h]
    have := natVal_go (Nat.digits 10 n) 0
      (fun d hd => Nat.digits_lt_base (by norm_num) hd)
    rw [this]
    simp [Nat.ofDigits_digits]

theorem natChars_digits (n : Nat) : ∀ c ∈ natChars n, c.isDigit = true := by
  by_cases h : n = 0
  · subst h; intro c hc; simp [natChars] at hc; subst hc; rfl
  · intro c hc
    unfold natChars at hc
    rw [if_neg h] at hc
    simp only [List.mem_reverse, List.mem_map] at hc
    obtain ⟨d, hd, rfl⟩ := hc
    exact digitChar_isDigit d (Nat.digits_lt_base (by norm_num) hd)

theorem natChars_ne_nil (n : Nat) : natChars n ≠ [] := by
  by_cases h : n = 0
  · subst h; simp [natChars]
  · unfold natChars
    rw [if_neg h]
    simp [Nat.digits_ne_nil_iff_ne_zero.mpr h]

theorem length_padChars (k x : Nat) : (padChars k x).length = k := by
  induction k generalizing x with
  | zero => rfl
  | succ k ih => simp [padChars, ih]

theorem padChars_digits (k x : Nat) : ∀ c ∈ padChars k x, c.isDigit = true := by
  induction k generalizing x with
  | zero => simp [padChars]
  | succ k ih =>
    intro c hc
    simp only [padChars, List.mem_append, List.mem_singleton] at hc
    rcases hc with hc | rfl
    · exact ih (x / 10) c hc
    · exact digitChar_isDigit _ (Nat.mod_lt _ (by norm_num))

theorem mod_pow_succ_ten (k x : Nat) :
    x % 10 ^ (k + 1) = 10 * (x / 10 % 10 ^ k) + x % 10 := by
  have h1 : x = (10 * (x / 10 % 10 ^ k) + x % 10) + 10 ^ (k + 1) * (x / 10 / 10 ^ k) := by
    have e1 : 10 * (x / 10) + x % 10 = x := Nat.div_add_mod x 10
    have e2 : 10 ^ k * (x / 10 / 10 ^ k) + x / 10 % 10 ^ k = x / 10 :=
      Nat.div_add_mod (x / 10) (10 ^ k)
    calc x = 10 * (x / 10) + x % 10 := e1.symm
    _ = 10 * (10 ^ k * (x / 10 / 10 ^ k) + x / 10 % 10 ^ k) + x % 10 := by rw [e2]
    _ = (10 * (x / 10 % 10 ^ k) + x % 10) + 10 ^ (k + 1) * (x / 10 / 10 ^ k) := by ring
  have h2 : 10 * (x / 10 % 10 ^ k) + x % 10 < 10 ^ (k + 1) := by
    have a1 : x / 10 % 10 ^ k < 10 ^ k := Nat.mod_lt _ (Nat.pos_pow_of_pos k (by norm_num))
    have a2 : x % 10 < 10 := Nat.mod_lt _ (by norm_num)
    have : 10 ^ (k + 1) = 10 * 10 ^ k := by ring
    omega
  calc x % 10 ^ (k + 1)
      = ((10 * (x / 10 % 10 ^ k) + x % 10) + 10 ^ (k + 1) * (x / 10 / 10 ^ k)) % 10 ^ (k + 1) := by
        rw [← h1]
    _ = (10 * (x / 10 % 10 ^ k) + x % 10) % 10 ^ (k + 1) := by
        rw [Nat.add_mul_mod_self_left]
    _ = 10 * (x / 10 % 10 ^ k) + x % 10 := Nat.mod_eq_of_lt h2

theorem padChars_go (k : Nat) :
    ∀ (x a : Nat),
      List.foldl (fun x c => 10 * x + digitVal c) a (padChars k x) =
        a * 10 ^ k + x % 10 ^ k := by
  induction k with
  | zero => intro x a; simp [padChars, Nat.mod_one]
  | succ k ih =>
    intro x a
    simp only [padChars, List.foldl_append, List.foldl_cons, List.foldl_nil]
    rw [ih (x / 10) a, digitVal_digitChar _ (Nat.mod_lt _ (by norm_num)),
      mod_pow_succ_ten k x]
    ring

theorem natVal_padChars (k x : Nat) (h : x < 10 ^ k) : natVal (padChars k x) = x := by
  unfold natVal
  rw [padChars_go k x 0, Nat.mod_eq_of_lt h]
  simp

/-! ## Decimal denominators and the number round-trip -/

theorem prod_two_five (L : List Nat) (h : ∀ p ∈ L, p = 2 ∨ p = 5) :
    L.prod = 2 ^ L.count 2 * 5 ^ L.count 5 := by
  induction L with
  | nil => simp
  | cons p t ih =>
    have ht : ∀ x ∈ t, x = 2 ∨ x = 5 := fun x hx => h x (by simp [hx])
    rcases h p (by simp) with rfl | rfl
    · rw [List.prod_cons, ih ht, List.count_cons_self,
        List.count_cons_of_ne (by norm_num : (5 : Nat) ≠ 2)]
      ring
    · rw [List.prod_cons, ih ht, List.count_cons_self,
        List.count_cons_of_ne (by norm_num : (2 : Nat) ≠ 5)]
      ring

theorem den_dvd_pow_decExp (q : ℚ) (hd : ∃ K, q.den ∣ 10 ^ K) :
    q.den ∣ 10 ^ decExp q := by
  obtain ⟨K, hK⟩ := hd
  have hne : q.den ≠ 0 := q.den_nz
  have hmem : ∀ p ∈ Nat.primeFactorsList q.den, p = 2 ∨ p = 5 := by
    intro p hp
    have hprime : Nat.Prime p := Nat.prime_of_mem_primeFactorsList hp
    have hdvd : p ∣ 10 ^ K := dvd_trans (Nat.dvd_of_mem_primeFactorsList hp) hK
    have h10 : p ∣ 2 * 5 := hprime.dvd_of_dvd_pow (by norm_num [Nat.mul_pow] at hdvd ⊢; exact hdvd)
    rcases (Nat.Prime.dvd_mul hprime).mp h10 with h2 | h5
    · exact Or.inl ((Nat.prime_dvd_prime_iff_eq hprime Nat.prime_two).mp h2)
    · exact Or.inr ((Nat.prime_dvd_prime_iff_eq hprime Nat.prime_five).mp h5)
  have hprod : (Nat.primeFactorsList q.den).prod = q.den := Nat.prod_primeFactorsList hne
  have hden : q.den = 2 ^ (Nat.primeFactorsList q.den).count 2 *
      5 ^ (Nat.primeFactorsList q.den).count 5 := by
    conv_lhs => rw [← hprod]
    exact prod_two_five _ hmem
  have h2le : (Nat.primeFactorsList q.den).count 2 ≤ decExp q := le_max_left _ _
  have h5le : (Nat.primeFactorsList q.den).count 5 ≤ decExp q := le_max_right _ _
  have hstep : 2 ^ (Nat.primeFactorsList q.den).count 2 *
      5 ^ (Nat.primeFactorsList q.den).count 5 ∣ 10 ^ decExp q := by
    calc 2 ^ (Nat.primeFactorsList q.den).count 2 * 5 ^ (Nat.primeFactorsList q.den).count 5
        ∣ 2 ^ decExp q * 5 ^ decExp q :=
          mul_dvd_mul (pow_dvd_pow 2 h2le) (pow_dvd_pow 5 h5le)
      _ = 10 ^ decExp q := by rw [← Nat.mul_pow]
  conv_lhs => rw [hden]
  exact hstep

theorem numMantissa_cast (q : ℚ) (hq : 0 ≤ q) (hd : ∃ K, q.den ∣ 10 ^ K) :
    ((numMantissa q : Nat) : ℚ) = q * 10 ^ decExp q := by
  have hdvd : q.den ∣ 10 ^ decExp q := den_dvd_pow_decExp q hd
  have hden0 : ((q.den : Nat) : ℚ) ≠ 0 := by
    simp
  have h0 : (0 : Int) ≤ q.num := Rat.num_nonneg.mpr hq
  have hnum : ((q.num.toNat : Nat) : ℚ) = (q.num : ℚ) := by
    rw [← Int.cast_natCast, Int.toNat_of_nonneg h0]
  have hq_eq : q * (q.den : ℚ) = (q.num : ℚ) := by
    nth_rewrite 1 [← Rat.num_div_den q]
    exact div_mul_cancel₀ _ hden0
  unfold numMantissa
  push_cast [Nat.cast_div hdvd hden0]
  rw [hnum]
  field_simp
  rw [← hq_eq]
  ring

theorem takeWhile_all_append (p : Char → Bool) (a b : List Char)
    (ha : ∀ c ∈ a, p c = true) (hb : ∀ c cs, b = c :: cs → p c = false) :
    List.takeWhile p (a ++ b) = a ∧ List.dropWhile p (a ++ b) = b := by
  induction a with
  | nil =>
    simp only [List.nil_append]
    cases b with
    | nil => simp
    | cons c cs =>
      have := hb c cs rfl
      simp [List.takeWhile_cons, List.dropWhile_cons, this]
  | cons x a ih =>
    have hx : p x = true := ha x (by simp)
    have ha2 : ∀ c ∈ a, p c = true := fun c hc => ha c (by simp [hc])
    obtain ⟨h1, h2⟩ := ih ha2
    simp [List.takeWhile_cons, List.dropWhile_cons, hx, h1, h2]

theorem numFormat_chars (q : ℚ) : ∀ c ∈ numFormat q, isDigitDot c = true := by
  intro c hc
  unfold numFormat at hc
  split_ifs at hc
  · simp [isDigitDot, natChars_digits _ c hc]
  · simp only [List.mem_append, List.mem_cons] at hc
    rcases hc with hc | rfl | hc
    · simp [isDigitDot, natChars_digits _ c hc]
    · simp [isDigitDot]
    · simp [isDigitDot, padChars_digits _ _ c hc]

theorem numFormat_ne_nil (q : ℚ) : numFormat q ≠ [] := by
  unfold numFormat
  split_ifs
  · exact natChars_ne_nil _
  · simp [natChars_ne_nil]

theorem numFormat_head_digit (q : ℚ) :
    ∀ c cs, numFormat q = c :: cs → c.isDigit = true := by
  intro c cs hc
  unfold numFormat at hc
  split_ifs at hc
  · exact natChars_digits _ c (by rw [hc]; simp)
  · rcases he : natChars (numMantissa q / 10 ^ decExp q) with - | ⟨c2, cs2⟩
    · exact absurd he (natChars_ne_nil _)
    · rw [he] at hc
      simp only [List.cons_append] at hc
      injection hc with h1 h2
      subst h1
      exact natChars_digits _ _ (by rw [he]; exact List.mem_cons_self _ _)

theorem numParse_numFormat (q : ℚ) (hq : 0 ≤ q) (hd : ∃ K, q.den ∣ 10 ^ K) :
    numParse (numFormat q) = some q := by
  have hdvd : q.den ∣ 10 ^ decExp q := den_dvd_pow_decExp q hd
  by_cases hk : decExp q = 0
  · have hden1 : q.den = 1 := by
      have := hdvd
      rw [hk, pow_zero] at this
      exact Nat.dvd_one.mp this
    have hm : numMantissa q = q.num.toNat := by
      unfold numMantissa
      rw [hden1, hk]
      simp
    have hqm : ((q.num.toNat : Nat) : ℚ) = q := by
      have h0 : (0 : Int) ≤ q.num := Rat.num_nonneg.mpr hq
      rw [← Int.cast_natCast, Int.toNat_of_nonneg h0]
      conv_rhs => rw [← Rat.num_div_den q]
      rw [hden1]
      simp
    unfold numFormat
    rw [if_pos hk]
    unfold numParse
    obtain ⟨ht, hdr⟩ := takeWhile_all_append Char.isDigit (natChars (numMantissa q)) []
      (natChars_digits _) (by intro c cs h; cases h)
    rw [List.append_nil] at ht hdr
    simp only [ht, hdr]
    rw [if_neg (by simp [List.isEmpty_iff, natChars_ne_nil])]
    rw [natVal_natChars, hm, hqm]
  · have hb : numMantissa q % 10 ^ decExp q < 10 ^ decExp q :=
      Nat.mod_lt _ (Nat.pos_pow_of_pos _ (by norm_num))
    unfold numFormat
    rw [if_neg hk]
    unfold numParse
    obtain ⟨ht, hdr⟩ := takeWhile_all_append Char.isDigit
      (natChars (numMantissa q / 10 ^ decExp q))
      ('.' :: padChars (decExp q) (numMantissa q % 10 ^ decExp q))
      (natChars_digits _)
      (by intro c cs h; injection h with h1 _; subst h1; rfl)
    simp only [ht, hdr]
    rw [if_pos]
    · rw [natVal_natChars, natVal_padChars _ _ hb, length_padChars]
      have hcast : ((numMantissa q : Nat) : ℚ) = q * 10 ^ decExp q :=
        numMantissa_cast q hq hd
      have hsplit : 10 ^ decExp q * (numMantissa q / 10 ^ decExp q) +
          numMantissa q % 10 ^ decExp q = numMantissa q :=
        Nat.div_add_mod _ _
      have hpow0 : ((10 : ℚ)) ^ decExp q ≠ 0 := by positivity
      have : ((numMantissa q / 10 ^ decExp q : Nat) : ℚ) +
          ((numMantissa q % 10 ^ decExp q : Nat) : ℚ) / 10 ^ decExp q = q := by
        field_simp
        have := congrArg (fun n : Nat => ((n : Nat) : ℚ)) hsplit
        push_cast at this
        rw [hcast] at this
        linarith [this]
      rw [this]
    · rw [Bool.and_eq_true]
      constructor
      · rw [List.all_eq_true]
        exact fun c hc => padChars_digits _ _ c hc
      · simp [List.isEmpty_iff, natChars_ne_nil]

/-! ## Lexer unfolding lemmas -/

theorem dropWhile_length_le (p : Char → Bool) (l : List Char) :
    (List.dropWhile p l).length ≤ l.length := by
  induction l with
  | nil => simp
  | cons a as ih =>
    rw [List.dropWhile_cons]
    split_ifs
    · exact le_trans ih (by simp)
    · simp

set_option maxHeartbeats 2000000 in
theorem lexCharsAux_mono :
    ∀ (fuel : Nat) (cs : List Char) (fuel2 : Nat), cs.length ≤ fuel → cs.length ≤ fuel2 →
      lexCharsAux fuel cs = lexCharsAux fuel2 cs := by
  intro fuel
  induction fuel with
  | zero =>
    intro cs fuel2 h1 h2
    obtain rfl : cs = [] := List.length_eq_zero.mp (Nat.le_zero.mp h1)
    cases fuel2 <;> rfl
  | succ fuel ih =>
    intro cs fuel2 h1 h2
    cases cs with
    | nil => cases fuel2 <;> rfl
    | cons c cs =>
      cases fuel2 with
      | zero => simp at h2
      | succ fuel2 =>
        have hlen : cs.length ≤ fuel := by simp at h1; omega
        have hlen2 : cs.length ≤ fuel2 := by simp at h2; omega
        have htl : cs.tail.length ≤ cs.length := by
          cases cs <;> simp
        have hdd := dropWhile_length_le isDigitDot cs
        have hal := dropWhile_length_le Char.isAlpha cs
        simp only [lexCharsAux]
        rw [ih cs fuel2 hlen hlen2,
          ih cs.tail fuel2 (le_trans htl hlen) (le_trans htl hlen2),
          ih (List.dropWhile isDigitDot cs) fuel2
            (le_trans hdd hlen) (le_trans hdd hlen2),
          ih (List.dropWhile Char.isAlpha cs) fuel2
            (le_trans hal hlen) (le_trans hal hlen2)]

theorem lexChars_cons (c : Char) (cs : List Char) :
    lexChars (c :: cs) =
      (if c = ' ' ∨ c = Char.ofNat 9 ∨ c = Char.ofNat 10 ∨ c = Char.ofNat 12 then
        lexChars cs
      else if c = '(' then Token.OpenParen :: lexChars cs
      else if c = ')' then Token.CloseParen :: lexChars cs
      else if c = '+' then Token.Plus :: lexChars cs
      else if c = '-' then Token.Minus :: lexChars cs
      else if c = '/' then Token.Slash :: lexChars cs
      else if c = '^' then Token.Exponent :: lexChars cs
      else if c = '*' then
        if cs.head? = some '*' then Token.Exponent :: lexChars cs.tail
        else Token.Asterisk :: lexChars cs
      else if isDigitDot c then
        (match numParse (c :: cs.takeWhile isDigitDot) with
          | some num => Token.Number num
          | none => Token.Error) :: lexChars (cs.dropWhile isDigitDot)
      else if c.isAlpha then
        Token.Identifier (String.mk (c :: cs.takeWhile Char.isAlpha)) ::
          lexChars (cs.dropWhile Char.isAlpha)
      else Token.Error :: lexChars cs) := by
  have htl : cs.tail.length ≤ cs.length := by cases cs <;> simp
  have hdd := dropWhile_length_le isDigitDot cs
  have hal := dropWhile_length_le Char.isAlpha cs
  have e0 : lexCharsAux cs.length cs = lexChars cs := rfl
  have e1 : lexCharsAux cs.length cs.tail = lexChars cs.tail :=
    lexCharsAux_mono cs.length cs.tail cs.tail.length htl (le_refl _)
  have e2 : lexCharsAux cs.length (List.dropWhile isDigitDot cs) =
      lexChars (List.dropWhile isDigitDot cs) :=
    lexCharsAux_mono cs.length _ _ hdd (le_refl _)
  have e3 : lexCharsAux cs.length (List.dropWhile Char.isAlpha cs) =
      lexChars (List.dropWhile Char.isAlpha cs) :=
    lexCharsAux_mono cs.length _ _ hal (le_refl _)
  show lexCharsAux (c :: cs).length (c :: cs) = _
  simp only [List.length_cons, lexCharsAux]
  rw [e0, e1, e2, e3]

/-! ## Character-class facts -/

theorem isAlpha_not_isDigit (c : Char) (h : c.isAlpha = true) : c.isDigit = false := by
  simp only [Char.isAlpha, Char.isUpper, Char.isLower, Char.isDigit, Bool.or_eq_true,
    Bool.and_eq_true, decide_eq_true_eq] at h ⊢
  simp only [Bool.and_eq_false_iff, decide_eq_false_iff_not, not_le]
  simp only [UInt32.le_def, UInt32.lt_def, BitVec.le_def, BitVec.lt_def] at h ⊢
  have v48 : ((48 : UInt32)).toBitVec.toNat = 48 := rfl
  have v57 : ((57 : UInt32)).toBitVec.toNat = 57 := rfl
  have v65 : ((65 : UInt32)).toBitVec.toNat = 65 := rfl
  have v90 : ((90 : UInt32)).toBitVec.toNat = 90 := rfl
  have v97 : ((97 : UInt32)).toBitVec.toNat = 97 := rfl
  have v122 : ((122 : UInt32)).toBitVec.toNat = 122 := rfl
  rcases h with ⟨h1, h2⟩ | ⟨h1, h2⟩ <;> omega

theorem isAlpha_not_digitDot (c : Char) (h : c.isAlpha = true) : isDigitDot c = false := by
  unfold isDigitDot
  rw [isAlpha_not_isDigit c h]
  simp only [Bool.false_or, decide_eq_false_iff_not]
  rintro rfl
  exact absurd h (by decide)

theorem isDigit_digitDot (c : Char) (h : c.isDigit = true) : isDigitDot c = true := by
  simp [isDigitDot, h]

theorem lexChars_space (cs : List Char) : lexChars (' ' :: cs) = lexChars cs := by
  rw [lexChars_cons, if_pos (by norm_num)]

theorem lexChars_open (cs : List Char) :
    lexChars ('(' :: cs) = Token.OpenParen :: lexChars cs := by
  rw [lexChars_cons, if_neg (by decide), if_pos rfl]

theorem lexChars_close (cs : List Char) :
    lexChars (')' :: cs) = Token.CloseParen :: lexChars cs := by
  rw [lexChars_cons, if_neg (by decide), if_neg (by decide), if_pos rfl]

theorem lexChars_plus (cs : List Char) :
    lexChars ('+' :: cs) = Token.Plus :: lexChars cs := by
  rw [lexChars_cons, if_neg (by decide), if_neg (by decide), if_neg (by decide), if_pos rfl]

theorem lexChars_minus (cs : List Char) :
    lexChars ('-' :: cs) = Token.Minus :: lexChars cs := by
  rw [lexChars_cons, if_neg (by decide), if_neg (by decide), if_neg (by decide),
    if_neg (by decide), if_pos rfl]

theorem lexChars_slash (cs : List Char) :
    lexChars ('/' :: cs) = Token.Slash :: lexChars cs := by
  rw [lexChars_cons, if_neg (by decide), if_neg (by decide), if_neg (by decide),
    if_neg (by decide), if_neg (by decide), if_pos rfl]

theorem lexChars_caret (cs : List Char) :
    lexChars ('^' :: cs) = Token.Exponent :: lexChars cs := by
  rw [lexChars_cons, if_neg (by decide), if_neg (by decide), if_neg (by decide),
    if_neg (by decide), if_neg (by decide), if_neg (by decide), if_pos rfl]

theorem lexChars_star (cs : List Char) (h : cs.head? ≠ some '*') :
    lexChars ('*' :: cs) = Token.Asterisk :: lexChars cs := by
  rw [lexChars_cons, if_neg (by decide), if_neg (by decide), if_neg (by decide),
    if_neg (by decide), if_neg (by decide), if_neg (by decide), if_neg (by decide),
    if_pos rfl, if_neg h]

theorem lexChars_digit (c : Char) (hc : c.isDigit = true) (cs : List Char) :
    lexChars (c :: cs) =
      (match numParse (c :: cs.takeWhile isDigitDot) with
        | some num => Token.Number num
        | none => Token.Error) :: lexChars (cs.dropWhile isDigitDot) := by
  have hne : ∀ c2 : Char, c2.isDigit = false → c ≠ c2 := by
    intro c2 h2 he
    subst he
    rw [hc] at h2
    exact Bool.noConfusion h2
  rw [lexChars_cons,
    if_neg (by
      rintro (rfl | rfl | rfl | rfl) <;> exact absurd hc (by decide)),
    if_neg (hne '(' (by decide)), if_neg (hne ')' (by decide)),
    if_neg (hne '+' (by decide)), if_neg (hne '-' (by decide)),
    if_neg (hne '/' (by decide)), if_neg (hne '^' (by decide)),
    if_neg (hne '*' (by decide)), if_pos (isDigit_digitDot c hc)]

theorem lexChars_alpha (c : Char) (hc : c.isAlpha = true) (cs : List Char) :
    lexChars (c :: cs) =
      Token.Identifier (String.mk (c :: cs.takeWhile Char.isAlpha)) ::
        lexChars (cs.dropWhile Char.isAlpha) := by
  have hne : ∀ c2 : Char, c2.isAlpha = false → c ≠ c2 := by
    intro c2 h2 he
    subst he
    rw [hc] at h2
    exact Bool.noConfusion h2
  rw [lexChars_cons,
    if_neg (by
      rintro (rfl | rfl | rfl | rfl) <;> exact absurd hc (by decide)),
    if_neg (hne '(' (by decide)), if_neg (hne ')' (by decide)),
    if_neg (hne '+' (by decide)), if_neg (hne '-' (by decide)),
    if_neg (hne '/' (by decide)), if_neg (hne '^' (by decide)),
    if_neg (hne '*' (by decide)),
    if_neg (by rw [isAlpha_not_digitDot c hc]; exact Bool.noConfusion),
    if_pos hc]

/-! ## The formatter lexes back to its token stream -/

theorem lexChars_numFormat (q : ℚ) (hq : 0 ≤ q) (hw : ∃ K, q.den ∣ 10 ^ K)
    (rest : List Char) (hsafe : ∀ c2 cs2, rest = c2 :: cs2 → c2 = ' ' ∨ c2 = ')') :
    lexChars (numFormat q ++ rest) = Token.Number q :: lexChars rest := by
  rcases he : numFormat q with - | ⟨c, cs⟩
  · exact absurd he (numFormat_ne_nil q)
  · have hcd : c.isDigit = true := numFormat_head_digit q c cs he
    have hall : ∀ x ∈ cs, isDigitDot x = true := fun x hx =>
      numFormat_chars q x (by rw [he]; simp [hx])
    rw [List.cons_append, lexChars_digit c hcd]
    obtain ⟨ht, hd⟩ := takeWhile_all_append isDigitDot cs rest hall
      (by intro c2 cs2 h2; rcases hsafe c2 cs2 h2 with rfl | rfl <;> rfl)
    rw [ht, hd]
    have hnp : numParse (c :: cs) = some q := by
      rw [← he]; exact numParse_numFormat q hq hw
    rw [hnp]

theorem lexChars_fmt :
    ∀ (T : Expr), EWf T →
      ∀ rest : List Char, (∀ c2 cs2, rest = c2 :: cs2 → c2 = ' ' ∨ c2 = ')') →
        lexChars (fmtChars T ++ rest) = toksOf T ++ lexChars rest := by
  intro T
  induction T with
  | Literal q =>
    intro hw rest hsafe
    by_cases hq : 0 ≤ q
    · simp only [fmtChars, if_pos hq, toksOf]
      rw [lexChars_numFormat q hq hw rest hsafe]
      rfl
    · have hq2 : 0 ≤ -q := by
        have := lt_of_not_le hq
        linarith
      have hw2 : ∃ K, (-q).den ∣ 10 ^ K := by rw [Rat.neg_den]; exact hw
      simp only [fmtChars, if_neg hq, toksOf]
      simp only [List.cons_append, List.append_assoc, List.singleton_append, List.nil_append]
      rw [lexChars_open, lexChars_minus]
      rw [lexChars_numFormat (-q) hq2 hw2 (')' :: rest) (by intro c2 cs2 h2; injection h2 with h3 _; subst h3; right; rfl)]
      rw [lexChars_close]
  | Identifier s =>
    intro hw rest hsafe
    obtain ⟨hne, hal⟩ := hw
    rcases hs : s.data with - | ⟨c, cs⟩
    · exact absurd hs hne
    · simp only [fmtChars, toksOf]
      rw [hs, List.cons_append, lexChars_alpha c (hal c (by rw [hs]; simp))]
      obtain ⟨ht, hd⟩ := takeWhile_all_append Char.isAlpha cs rest
        (fun x hx => hal x (by rw [hs]; simp [hx]))
        (by intro c2 cs2 h2
            rcases hsafe c2 cs2 h2 with rfl | rfl <;> rfl)
      rw [ht, hd]
      have hmk : String.mk (c :: cs) = s := by rw [← hs]
      rw [hmk]
      rfl
  | Binary l op r ihl ihr =>
    intro hw rest hsafe
    obtain ⟨hwl, hwr⟩ := hw
    simp only [fmtChars, toksOf]
    simp only [List.cons_append, List.append_assoc, List.singleton_append, List.nil_append]
    rw [lexChars_open]
    rw [ihl hwl (' ' :: opChar op :: ' ' :: (fmtChars r ++ ')' :: rest))
      (by intro c2 cs2 h2; injection h2 with h3 _; subst h3; left; rfl)]
    rw [lexChars_space]
    have hr : lexChars (' ' :: (fmtChars r ++ ')' :: rest)) =
        toksOf r ++ Token.CloseParen :: lexChars rest := by
      rw [lexChars_space]
      rw [ihr hwr (')' :: rest)
        (by intro c2 cs2 h2; injection h2 with h3 _; subst h3; right; rfl)]
      rw [lexChars_close]
    cases op with
    | Plus =>
      rw [show opChar BinOpKind.Plus = '+' from rfl, lexChars_plus, hr]
      simp [opTok]
    | Minus =>
      rw [show opChar BinOpKind.Minus = '-' from rfl, lexChars_minus, hr]
      simp [opTok]
    | Asterisk =>
      rw [show opChar BinOpKind.Asterisk = '*' from rfl,
        lexChars_star _ (by simp), hr]
      simp [opTok]
    | Slash =>
      rw [show opChar BinOpKind.Slash = '/' from rfl, lexChars_slash, hr]
      simp [opTok]
    | Exponent =>
      rw [show opChar BinOpKind.Exponent = '^' from rfl, lexChars_caret, hr]
      simp [opTok]
  | Unary op r ihr =>
    intro hw rest hsafe
    obtain ⟨hop, -, hwr⟩ := hw
    subst hop
    simp only [fmtChars, toksOf]
    simp only [List.cons_append, List.append_assoc, List.singleton_append, List.nil_append]
    rw [show uopChar UnaryOpKind.Minus = '-' from rfl, lexChars_open, lexChars_minus]
    rw [ihr hwr (')' :: rest)
      (by intro c2 cs2 h2; injection h2 with h3 _; subst h3; right; rfl)]
    rw [lexChars_close]
    simp [uopTok]
  | Error =>
    intro _ rest hsafe
    simp only [fmtChars, toksOf]
    rw [List.cons_append, lexChars_alpha 'e' (by decide)]
    obtain ⟨ht, hd⟩ := takeWhile_all_append Char.isAlpha ['r', 'r'] rest
      (by intro x hx; simp at hx; subst hx; rfl)
      (by intro c2 cs2 h2
          rcases hsafe c2 cs2 h2 with rfl | rfl <;> rfl)
    rw [ht, hd]
    rfl

/-! ## Parser step equations and state helpers -/

theorem stateOf_cons (t : Token) (ts : List Token) (errs : List String) :
    stateOf (t :: ts) errs = ⟨t, ts, errs⟩ := rfl

theorem eat_stateOf (t : Token) (ts : List Token) (errs : List String) :
    eat_tok (stateOf (t :: ts) errs) = (t, stateOf ts errs) := rfl

theorem parse_atom_succ (f : Nat) (st : PState) :
    parse_atom (f + 1) st =
      match eat_tok st with
      | (.Number num, st1) => .ok (.Literal num, st1)
      | (.Identifier ident, st1) => .ok (.Identifier ident, st1)
      | (.OpenParen, st1) =>
        (match parse_expr_bp f 0 st1 with
          | .ok (e, st2) =>
            (match eat_tok st2 with
              | (.CloseParen, st3) => .ok (e, st3)
              | (_, st3) =>
                .ok (.Error, push_err st3 ("unexpected token, expected a '(' token")))
          | .error msg => .error msg)
      | (_, st1) => .ok (.Error, push_err st1 ("unexpected token, expected an expression")) :=
  rfl

theorem parse_left_succ (f : Nat) (st : PState) :
    parse_left (f + 1) st =
      if st.current_tok.get_prefix_bp = -1 then parse_atom f st
      else
        match try_into_unary (eat_tok st).1 with
        | none => .error ("non negative bp should be valid unary op")
        | some prefix_op =>
          (match parse_expr_bp f st.current_tok.get_prefix_bp (eat_tok st).2 with
            | .ok (right, st2) =>
              (match right with
                | .Literal num => .ok (.Literal (num * (-1)), st2)
                | _ => .ok (.Unary prefix_op right, st2))
            | .error msg => .error msg) :=
  rfl

theorem parse_loop_succ (f : Nat) (min_bp : Int) (left : Expr) (st : PState) :
    parse_loop (f + 1) min_bp left st =
      if (st.current_tok.get_infix_bp).1 < min_bp then .ok (left, st)
      else
        match try_into_bin (eat_tok st).1 with
        | none => .error ("non negative bp should be valid binop")
        | some bin_op =>
          (match parse_expr_bp f (st.current_tok.get_infix_bp).2 (eat_tok st).2 with
            | .ok (right, st2) => parse_loop f min_bp (.Binary left bin_op right) st2
            | .error msg => .error msg) :=
  rfl

theorem parse_expr_bp_succ (f : Nat) (min_bp : Int) (st : PState) :
    parse_expr_bp (f + 1) min_bp st =
      match parse_left f st with
      | .ok (left, st1) => parse_loop f min_bp left st1
      | .error msg => .error msg :=
  rfl

theorem stateOf_current (ts : List Token) (errs : List String) :
    (stateOf ts errs).current_tok = ts.headD Token.Eof := rfl

theorem parse_left_open (f : Nat) (ts : List Token) (errs : List String) :
    parse_left (f + 1 + 1) (stateOf (Token.OpenParen :: ts) errs) =
      (match parse_expr_bp f 0 (stateOf ts errs) with
        | .ok (e, st2) =>
          (match eat_tok st2 with
            | (.CloseParen, st3) => .ok (e, st3)
            | (_, st3) =>
              .ok (.Error, push_err st3 ("unexpected token, expected a '(' token")))
        | .error msg => .error msg) :=
  rfl

theorem parse_loop_stop (f : Nat) (min_bp : Int) (left : Expr) (st : PState)
    (h : (st.current_tok.get_infix_bp).1 < min_bp) :
    parse_loop (f + 1) min_bp left st = .ok (left, st) := by
  rw [parse_loop_succ, if_pos h]

theorem opTok_bp1 (op : BinOpKind) : ¬ ((opTok op).get_infix_bp).1 < 0 := by
  cases op <;> decide

theorem opTok_bp2_pos (op : BinOpKind) : (-1 : Int) < ((opTok op).get_infix_bp).2 := by
  cases op <;> decide

theorem try_into_bin_opTok (op : BinOpKind) : try_into_bin (opTok op) = some op := by
  cases op <;> rfl

theorem closeParen_bp1 : (Token.CloseParen.get_infix_bp).1 = -1 := rfl

theorem parse_left_open_close (f : Nat) (ts : List Token) (errs : List String)
    (rest : List Token) (e : Expr)
    (h : parse_expr_bp f 0 (stateOf ts errs) = .ok (e, stateOf (Token.CloseParen :: rest) errs)) :
    parse_left (f + 1 + 1) (stateOf (Token.OpenParen :: ts) errs) = .ok (e, stateOf rest errs) := by
  rw [parse_left_open, h]
  rfl

/-- The formatter token stream of a well-formed, `Error`-free expression
parses back to that expression: `parse_left` consumes exactly `toksOf T`
from the front of the state and returns `T`. -/
theorem parse_left_toks :
    ∀ T : Expr, noErr T = true → EWf T →
      ∀ (fuel : Nat) (rest : List Token) (errs : List String),
        8 * exprSize T + 2 ≤ fuel →
        parse_left fuel (stateOf (toksOf T ++ rest) errs) = .ok (T, stateOf rest errs) := by
  intro T
  induction T with
  | Literal q =>
    intro hne hwf fuel rest errs hf
    simp only [exprSize] at hf
    by_cases hq : 0 ≤ q
    · obtain ⟨g, rfl⟩ : ∃ g, fuel = g + 1 + 1 := ⟨fuel - 2, by omega⟩
      simp only [toksOf, if_pos hq, List.cons_append, List.nil_append]
      rfl
    · obtain ⟨g, rfl⟩ : ∃ g, fuel = g + 1 + 1 + 1 + 1 + 1 + 1 + 1 + 1 := ⟨fuel - 8, by omega⟩
      simp only [toksOf, if_neg hq, List.cons_append, List.nil_append]
      have hstep : parse_left (g + 1 + 1 + 1 + 1 + 1 + 1 + 1 + 1)
          (stateOf (Token.OpenParen :: Token.Minus :: Token.Number (-q) ::
            Token.CloseParen :: rest) errs)
          = .ok (.Literal ((-q) * (-1)), stateOf rest errs) := rfl
      rw [hstep, show (-q) * (-1) = q from by ring]
  | Identifier s =>
    intro hne hwf fuel rest errs hf
    simp only [exprSize] at hf
    obtain ⟨g, rfl⟩ : ∃ g, fuel = g + 1 + 1 := ⟨fuel - 2, by omega⟩
    simp only [toksOf, List.cons_append, List.nil_append]
    rfl
  | Binary l op r ihl ihr =>
    intro hne hwf fuel rest errs hf
    simp only [noErr, Bool.and_eq_true] at hne
    obtain ⟨hnel, hner⟩ := hne
    obtain ⟨hwl, hwr⟩ := hwf
    simp only [exprSize] at hf
    obtain ⟨g, rfl⟩ : ∃ g, fuel = g + 1 + 1 + 1 + 1 + 1 + 1 := ⟨fuel - 6, by omega⟩
    simp only [toksOf, List.cons_append, List.append_assoc, List.singleton_append,
      List.nil_append]
    have h1 : parse_left (g + 1 + 1 + 1)
        (stateOf (toksOf l ++ (opTok op :: (toksOf r ++ (Token.CloseParen :: rest)))) errs)
        = .ok (l, stateOf (opTok op :: (toksOf r ++ (Token.CloseParen :: rest))) errs) :=
      ihl hnel hwl _ _ _ (by omega)
    have h2 : parse_left (g + 1)
        (stateOf (toksOf r ++ (Token.CloseParen :: rest)) errs)
        = .ok (r, stateOf (Token.CloseParen :: rest) errs) :=
      ihr hner hwr _ _ _ (by omega)
    have h3 : parse_expr_bp (g + 1 + 1) ((opTok op).get_infix_bp).2
        (stateOf (toksOf r ++ (Token.CloseParen :: rest)) errs)
        = .ok (r, stateOf (Token.CloseParen :: rest) errs) := by
      rw [parse_expr_bp_succ, h2]
      show parse_loop (g + 1) ((opTok op).get_infix_bp).2 r
        (stateOf (Token.CloseParen :: rest) errs) = _
      rw [parse_loop_succ]
      simp only [stateOf_current, List.headD_cons, closeParen_bp1]
      rw [if_pos (opTok_bp2_pos op)]
    have h4 : parse_expr_bp (g + 1 + 1 + 1 + 1) 0
        (stateOf (toksOf l ++ (opTok op :: (toksOf r ++ (Token.CloseParen :: rest)))) errs)
        = .ok (.Binary l op r, stateOf (Token.CloseParen :: rest) errs) := by
      rw [parse_expr_bp_succ, h1]
      show parse_loop (g + 1 + 1 + 1) 0 l
        (stateOf (opTok op :: (toksOf r ++ (Token.CloseParen :: rest))) errs) = _
      rw [parse_loop_succ]
      simp only [stateOf_current, List.headD_cons]
      rw [if_neg (opTok_bp1 op)]
      simp only [eat_stateOf]
      rw [try_into_bin_opTok, h3]
      show parse_loop (g + 1 + 1) 0 (.Binary l op r)
        (stateOf (Token.CloseParen :: rest) errs) = _
      rw [parse_loop_succ]
      simp only [stateOf_current, List.headD_cons]
      rw [if_pos (by decide)]
    exact parse_left_open_close _ _ _ _ _ h4
  | Unary op r ihr =>
    intro hne hwf fuel rest errs hf
    obtain ⟨hop, hnl, hwr⟩ := hwf
    subst hop
    simp only [noErr] at hne
    simp only [exprSize] at hf
    obtain ⟨g, rfl⟩ : ∃ g, fuel = g + 1 + 1 + 1 + 1 + 1 + 1 := ⟨fuel - 6, by omega⟩
    simp only [toksOf, uopTok, List.cons_append, List.append_assoc, List.singleton_append,
      List.nil_append]
    have h2 : parse_left (g + 1)
        (stateOf (toksOf r ++ (Token.CloseParen :: rest)) errs)
        = .ok (r, stateOf (Token.CloseParen :: rest) errs) :=
      ihr hne hwr _ _ _ (by omega)
    have h3 : parse_expr_bp (g + 1 + 1) 8
        (stateOf (toksOf r ++ (Token.CloseParen :: rest)) errs)
        = .ok (r, stateOf (Token.CloseParen :: rest) errs) := by
      rw [parse_expr_bp_succ, h2]
      show parse_loop (g + 1) 8 r (stateOf (Token.CloseParen :: rest) errs) = _
      rw [parse_loop_succ]
      simp only [stateOf_current, List.headD_cons]
      rw [if_pos (by decide)]
    have h4 : parse_expr_bp (g + 1 + 1 + 1 + 1) 0
        (stateOf (Token.Minus :: (toksOf r ++ (Token.CloseParen :: rest))) errs)
        = .ok (.Unary .Minus r, stateOf (Token.CloseParen :: rest) errs) := by
      rw [parse_expr_bp_succ, parse_left_succ]
      simp only [stateOf_current, List.headD_cons, Token.get_prefix_bp]
      rw [if_neg (by decide)]
      simp only [eat_stateOf, try_into_unary]
      rw [h3]
      cases r with
      | Literal num => exact absurd rfl (hnl num)
      | Identifier s =>
        show parse_loop (g + 1 + 1 + 1) 0 (.Unary .Minus (.Identifier s))
          (stateOf (Token.CloseParen :: rest) errs) = _
        rw [parse_loop_succ]
        simp only [stateOf_current, List.headD_cons]
        rw [if_pos (by decide)]
      | Binary l2 op2 r2 =>
        show parse_loop (g + 1 + 1 + 1) 0 (.Unary .Minus (.Binary l2 op2 r2))
          (stateOf (Token.CloseParen :: rest) errs) = _
        rw [parse_loop_succ]
        simp only [stateOf_current, List.headD_cons]
        rw [if_pos (by decide)]
      | Unary op2 r2 =>
        show parse_loop (g + 1 + 1 + 1) 0 (.Unary .Minus (.Unary op2 r2))
          (stateOf (Token.CloseParen :: rest) errs) = _
        rw [parse_loop_succ]
        simp only [stateOf_current, List.headD_cons]
        rw [if_pos (by decide)]
      | Error =>
        show parse_loop (g + 1 + 1 + 1) 0 (.Unary .Minus .Error)
          (stateOf (Token.CloseParen :: rest) errs) = _
        rw [parse_loop_succ]
        simp only [stateOf_current, List.headD_cons]
        rw [if_pos (by decide)]
    exact parse_left_open_close _ _ _ _ _ h4
  | Error =>
    intro hne
    exact absurd hne (by decide)

theorem toksOf_ne_nil (T : Expr) : toksOf T ≠ [] := by
  cases T with
  | Literal q =>
    by_cases hq : 0 ≤ q <;> simp [toksOf, hq]
  | Identifier s => simp [toksOf]
  | Binary l op r => simp [toksOf]
  | Unary op r => simp [toksOf]
  | Error => simp [toksOf]

theorem exprSize_le_toksOf (T : Expr) : exprSize T ≤ (toksOf T).length := by
  induction T with
  | Literal q =>
    by_cases hq : 0 ≤ q
    · simp only [toksOf, if_pos hq, exprSize, List.length_cons, List.length_nil]
      omega
    · simp only [toksOf, if_neg hq, exprSize, List.length_cons, List.length_nil]
      omega
  | Identifier s =>
    simp only [toksOf, exprSize, List.length_cons, List.length_nil]
    omega
  | Binary l op r ihl ihr =>
    simp only [toksOf, exprSize, List.length_cons, List.length_append, List.length_nil]
    omega
  | Unary op r ihr =>
    simp only [toksOf, exprSize, List.length_cons, List.length_append, List.length_nil]
    omega
  | Error =>
    simp only [toksOf, exprSize, List.length_cons, List.length_nil]
    omega

/-- `Parser::from` + `Parser::parse` on the formatter token stream of a
well-formed, `Error`-free expression return the expression with no
recorded errors. -/
theorem parse_tokens_toksOf (T : Expr) (hne : noErr T = true) (hwf : EWf T) :
    parse_tokens (toksOf T) = .ok (T, []) := by
  rcases hts : toksOf T with - | ⟨t, ts⟩
  · exact absurd hts (toksOf_ne_nil T)
  · have hlen := exprSize_le_toksOf T
    rw [hts] at hlen
    show (match parse_expr_bp (8 * (t :: ts).length + 16) 0 (stateOf (t :: ts) []) with
      | Except.ok (e, st2) =>
        (match eat_tok st2 with
          | (Token.Eof, st3) => Except.ok (e, st3.errors)
          | (_, st3) => Except.ok (e, (push_err st3 ("unexpected token")).errors))
      | Except.error msg => Except.error msg) = Except.ok (T, [])
    have key : parse_expr_bp (8 * (t :: ts).length + 16) 0 (stateOf (t :: ts) [])
        = .ok (T, stateOf [] []) := by
      obtain ⟨g, hg⟩ : ∃ g, 8 * (t :: ts).length + 16 = g + 1 + 1 :=
        ⟨8 * (t :: ts).length + 14, by omega⟩
      rw [hg, parse_expr_bp_succ]
      have hpl : parse_left (g + 1) (stateOf (t :: ts) []) = .ok (T, stateOf [] []) := by
        rw [← hts]
        conv_lhs => rw [show (toksOf T : List Token) = toksOf T ++ [] from
          (List.append_nil _).symm]
        exact parse_left_toks T hne hwf (g + 1) [] [] (by omega)
      rw [hpl]
      show parse_loop (g + 1) 0 T (stateOf [] []) = _
      rw [parse_loop_succ]
      simp only [stateOf_current, List.headD_nil]
      rw [if_pos (by decide)]
    rw [key]
    rfl

/-- The canonical formatter output of a well-formed, `Error`-free
expression lexes and parses back to the same expression with no
errors. -/
theorem parse_str_fmt (T : Expr) (hne : noErr T = true) (hwf : EWf T) :
    parse_str (fmtExpr T) = .ok (T, []) := by
  have hlex : lexStr (fmtExpr T) = toksOf T := by
    show lexChars (fmtChars T) = toksOf T
    conv_lhs => rw [show (fmtChars T : List Char) = fmtChars T ++ [] from
      (List.append_nil _).symm]
    rw [lexChars_fmt T hwf [] (fun c2 cs2 h2 => List.noConfusion h2)]
    rw [show lexChars [] = [] from rfl, List.append_nil]
  show parse_tokens (lexStr (fmtExpr T)) = .ok (T, [])
  rw [hlex]
  exact parse_tokens_toksOf T hne hwf

theorem StWf_eat (st : PState) (h : StWf st) : StWf (eat_tok st).2 := by
  obtain ⟨h1, h2⟩ := h
  refine ⟨?_, ?_⟩
  · show TokWf (st.lexer.headD Token.Eof)
    rcases hl : st.lexer with - | ⟨t, ts⟩
    · exact trivial
    · exact h2 t (by rw [hl]; exact List.mem_cons_self t ts)
  · intro t ht
    exact h2 t (List.mem_of_mem_tail ht)

theorem StWf_push (st : PState) (msg : String) (h : StWf st) : StWf (push_err st msg) := h

theorem try_into_unary_minus (t : Token) (p : UnaryOpKind) (h : try_into_unary t = some p) :
    p = UnaryOpKind.Minus := by
  cases t <;> simp [try_into_unary] at h
  exact h.symm

/-- Output invariant of the four mutually recursive parser functions:
from a state whose tokens are well formed, a successful parse returns a
well-formed expression (exact-decimal literals, alphabetic identifiers,
unary minus only over non-literals) and a well-formed state. -/
theorem parse_wf (fuel : Nat) :
    (∀ st e st2, StWf st → parse_atom fuel st = .ok (e, st2) → EWf e ∧ StWf st2) ∧
    (∀ st e st2, StWf st → parse_left fuel st = .ok (e, st2) → EWf e ∧ StWf st2) ∧
    (∀ min_bp left st e st2, StWf st → EWf left →
      parse_loop fuel min_bp left st = .ok (e, st2) → EWf e ∧ StWf st2) ∧
    (∀ min_bp st e st2, StWf st → parse_expr_bp fuel min_bp st = .ok (e, st2) →
      EWf e ∧ StWf st2) := by
  induction fuel with
  | zero =>
    refine ⟨?_, ?_, ?_, ?_⟩
    · intro st e st2 hst h
      exact Except.noConfusion h
    · intro st e st2 hst h
      exact Except.noConfusion h
    · intro min_bp left st e st2 hst hleft h
      exact Except.noConfusion h
    · intro min_bp st e st2 hst h
      exact Except.noConfusion h
  | succ f ih =>
    obtain ⟨iha, ihl, ihlp, ihb⟩ := ih
    refine ⟨?_, ?_, ?_, ?_⟩
    · intro st e st2 hst h
      rw [parse_atom_succ] at h
      split at h
      · rename_i num st1 heq
        injection h with h2
        injection h2 with he hs
        subst he
        subst hs
        refine ⟨?_, ?_⟩
        · have hc : st.current_tok = Token.Number num := congrArg Prod.fst heq
          have h1 := hst.1
          rw [hc] at h1
          exact h1.2
        · have hw := StWf_eat st hst
          rwa [show (eat_tok st).2 = st1 from congrArg Prod.snd heq] at hw
      · rename_i ident st1 heq
        injection h with h2
        injection h2 with he hs
        subst he
        subst hs
        refine ⟨?_, ?_⟩
        · have hc : st.current_tok = Token.Identifier ident := congrArg Prod.fst heq
          have h1 := hst.1
          rw [hc] at h1
          exact h1
        · have hw := StWf_eat st hst
          rwa [show (eat_tok st).2 = st1 from congrArg Prod.snd heq] at hw
      · rename_i st1 heq
        have hst1 : StWf st1 := by
          have hw := StWf_eat st hst
          rwa [show (eat_tok st).2 = st1 from congrArg Prod.snd heq] at hw
        split at h
        · rename_i e1 st2x heq2
          obtain ⟨hew, hsw⟩ := ihb 0 st1 e1 st2x hst1 heq2
          split at h
          · rename_i st3 heq3
            injection h with h2
            injection h2 with he hs
            subst he
            subst hs
            refine ⟨hew, ?_⟩
            have hw := StWf_eat st2x hsw
            rwa [show (eat_tok st2x).2 = st3 from congrArg Prod.snd heq3] at hw
          · rename_i tok st3 hcon heq3
            injection h with h2
            injection h2 with he hs
            subst he
            subst hs
            refine ⟨trivial, ?_⟩
            apply StWf_push
            have hw := StWf_eat st2x hsw
            rwa [show (eat_tok st2x).2 = st3 from congrArg Prod.snd heq3] at hw
        · exact Except.noConfusion h
      · rename_i tok st1 hcon1 hcon2 hcon3 heq
        injection h with h2
        injection h2 with he hs
        subst he
        subst hs
        refine ⟨trivial, ?_⟩
        apply StWf_push
        have hw := StWf_eat st hst
        rwa [show (eat_tok st).2 = st1 from congrArg Prod.snd heq] at hw
    · intro st e st2 hst h
      rw [parse_left_succ] at h
      split at h
      · exact iha st e st2 hst h
      · split at h
        · exact Except.noConfusion h
        · rename_i prefix_op heq
          split at h
          · rename_i right st2x heq2
            obtain ⟨hewr, hsw⟩ := ihb _ _ _ _ (StWf_eat st hst) heq2
            split at h
            · rename_i num
              injection h with h2
              injection h2 with he hs
              subst he
              subst hs
              refine ⟨?_, hsw⟩
              show ∃ k : Nat, (num * (-1)).den ∣ 10 ^ k
              rw [show num * (-1) = -num from by ring, Rat.neg_den]
              exact hewr
            · rename_i hconstraint
              injection h with h2
              injection h2 with he hs
              subst he
              subst hs
              exact ⟨⟨try_into_unary_minus _ _ heq, fun num hh => hconstraint num hh, hewr⟩, hsw⟩
          · exact Except.noConfusion h
    · intro min_bp left st e st2 hst hleft h
      rw [parse_loop_succ] at h
      split at h
      · injection h with h2
        injection h2 with he hs
        subst he
        subst hs
        exact ⟨hleft, hst⟩
      · split at h
        · exact Except.noConfusion h
        · rename_i bin_op heq
          split at h
          · rename_i right st2x heq2
            obtain ⟨hewr, hsw⟩ := ihb _ _ _ _ (StWf_eat st hst) heq2
            exact ihlp min_bp (.Binary left bin_op right) st2x e st2 hsw ⟨hleft, hewr⟩ h
          · exact Except.noConfusion h
    · intro min_bp st e st2 hst h
      rw [parse_expr_bp_succ] at h
      split at h
      · rename_i left st1 heq
        obtain ⟨hewl, hsw⟩ := ihl st left st1 hst heq
        exact ihlp min_bp left st1 e st2 hsw hewl h
      · exact Except.noConfusion h

theorem numParse_wf (cs : List Char) (q : ℚ) (h : numParse cs = some q) :
    0 ≤ q ∧ ∃ k : Nat, q.den ∣ 10 ^ k := by
  simp only [numParse] at h
  split at h
  · split at h
    · exact Option.noConfusion h
    · injection h with h2
      subst h2
      refine ⟨Nat.cast_nonneg _, 0, ?_⟩
      rw [Rat.den_natCast]
      exact one_dvd _
  · rename_i frac heq
    split at h
    · injection h with h2
      subst h2
      constructor
      · apply add_nonneg (Nat.cast_nonneg _)
        apply div_nonneg (Nat.cast_nonneg _)
        positivity
      · refine ⟨frac.length, ?_⟩
        have hq : ((natVal (cs.takeWhile Char.isDigit) : ℕ) : ℚ) +
            ((natVal frac : ℕ) : ℚ) / 10 ^ frac.length
            = Rat.divInt ((natVal (cs.takeWhile Char.isDigit)) * 10 ^ frac.length
                + natVal frac) (10 ^ frac.length) := by
          rw [Rat.divInt_eq_div]
          push_cast
          rw [add_div]
          congr 1
          rw [mul_div_assoc, div_self (by positivity), mul_one]
        rw [hq]
        have hd := Rat.den_dvd
          ((natVal (cs.takeWhile Char.isDigit)) * 10 ^ frac.length + natVal frac : ℤ)
          (10 ^ frac.length : ℤ)
        have h10 : ((10 : ℤ) ^ frac.length) = ((10 ^ frac.length : ℕ) : ℤ) := by
          push_cast
          ring
        rw [h10] at hd
        exact_mod_cast hd
    · exact Option.noConfusion h
  · exact Option.noConfusion h

/-- Every token the lexer emits is well formed: numbers are non-negative
exact decimals, identifiers are non-empty alphabetic strings. -/
theorem lexCharsAux_wf :
    ∀ (fuel : Nat) (cs : List Char) (t : Token), t ∈ lexCharsAux fuel cs → TokWf t := by
  intro fuel
  induction fuel with
  | zero =>
    intro cs t ht
    simp only [lexCharsAux] at ht
    exact absurd ht (List.not_mem_nil t)
  | succ f ih =>
    intro cs t ht
    rcases cs with - | ⟨c, cs⟩
    · simp only [lexCharsAux] at ht
      exact absurd ht (List.not_mem_nil t)
    · simp only [lexCharsAux] at ht
      repeat' split at ht
      all_goals try exact ih _ _ ht
      all_goals rcases List.mem_cons.mp ht with rfl | ht2
      all_goals try exact ih _ _ ht2
      all_goals try trivial
      · exact numParse_wf _ _ (by assumption)
      · constructor
        · intro hh
          exact List.noConfusion hh
        · intro x hx
          rcases List.mem_cons.mp hx with rfl | hx2
          · assumption
          · exact List.mem_takeWhile_imp hx2

theorem StWf_stateOf (ts : List Token) (h : ∀ t ∈ ts, TokWf t) (errs : List String) :
    StWf (stateOf ts errs) := by
  constructor
  · show TokWf (ts.headD Token.Eof)
    rcases ts with - | ⟨t, ts⟩
    · exact trivial
    · exact h t (List.mem_cons_self t ts)
  · intro t ht
    exact h t (List.mem_of_mem_tail ht)

/-- C7 counterexample: `Expr.Error` is a parser output — parsing the
string `(` returns it (with two recorded errors) — but the canonical
formatter prints it as `err`, which re-parses to the identifier `err`,
not to `Expr.Error`: the round-trip fails on parser outputs containing
error nodes. -/
theorem c7_counterexample :
    parse_str ("(") = .ok (Expr.Error,
      ["unexpected token, expected an expression",
       "unexpected token, expected a '(' token"]) ∧
    parse_str (fmtExpr Expr.Error) = .ok (.Identifier ("err"), []) ∧
    Expr.Identifier ("err") ≠ Expr.Error :=
  ⟨rfl, rfl, fun h => Expr.noConfusion h⟩

/-- C7 as amended: for every parser output `T` containing no `Error`
node, lexing and re-parsing the canonical formatter output of `T`
yields exactly `T`, with no recorded errors. -/
theorem c7_round_trip :
    ∀ (s : String) (T : Expr) (errs : List String),
      parse_str s = .ok (T, errs) → noErr T = true →
      parse_str (fmtExpr T) = .ok (T, []) := by
  intro s T errs hp hne
  apply parse_str_fmt T hne
  have hw : ∀ t ∈ lexStr s, TokWf t := fun t ht => lexCharsAux_wf _ _ t ht
  have hp' : parse_tokens (lexStr s) = .ok (T, errs) := hp
  rcases hls : lexStr s with - | ⟨t, ts⟩
  · rw [hls] at hp'
    exact Except.noConfusion hp'
  · rw [hls] at hp' hw
    have hp2 : (match parse_expr_bp (8 * (t :: ts).length + 16) 0 (stateOf (t :: ts) []) with
      | Except.ok (e, st2) =>
        (match eat_tok st2 with
          | (Token.Eof, st3) => Except.ok (e, st3.errors)
          | (_, st3) => Except.ok (e, (push_err st3 ("unexpected token")).errors))
      | Except.error msg => Except.error msg) = Except.ok (T, errs) := hp'
    have hst : StWf (stateOf (t :: ts) []) := StWf_stateOf _ hw []
    split at hp2
    · rename_i e st2 heq
      obtain ⟨hew, -⟩ := (parse_wf _).2.2.2 0 _ e st2 hst heq
      split at hp2
      · rename_i st3 heq2
        injection hp2 with h2
        injection h2 with he hs
        subst he
        exact hew
      · rename_i tok2 st3 hcon heq2
        injection hp2 with h2
        injection h2 with he hs
        subst he
        exact hew
    · exact Except.noConfusion hp2

theorem c7_round_trip_witness :
    parse_str (fmtExpr (Expr.Identifier ("x"))) = .ok (Expr.Identifier ("x"), []) :=
  c7_round_trip ("x") (Expr.Identifier ("x")) [] rfl rfl

/-- C8 counterexample: a prefix plus is not absorbed — `try_into_unary`
only converts `Minus`, so the `.expect` call in `parse_expr_bp` panics
(modelled as the error value) on input `+x`, while `x` alone parses
fine. -/
theorem c8_counterexample :
    parse_str ("+x") = .error ("non negative bp should be valid unary op") ∧
    parse_str ("x") = .ok (.Identifier ("x"), []) :=
  ⟨rfl, rfl⟩

/-- C8 as amended: prefix minus over a literal operand is folded at
parse time into one negated literal node; prefix minus over a
non-literal operand produces `Unary(Minus, operand)`; prefix plus is
not absorbed but panics (the `.expect` on `try_into_unary`, which only
converts `Minus`). -/
theorem c8_prefix_parsing (fuel : Nat) (st : PState) :
    (st.current_tok = Token.Plus →
      parse_left (fuel + 1) st = .error ("non negative bp should be valid unary op")) ∧
    (st.current_tok = Token.Minus →
      ∀ (num : ℚ) (st2 : PState),
        parse_expr_bp fuel 8 (eat_tok st).2 = .ok (.Literal num, st2) →
        parse_left (fuel + 1) st = .ok (.Literal (num * (-1)), st2)) ∧
    (st.current_tok = Token.Minus →
      ∀ (right : Expr) (st2 : PState),
        parse_expr_bp fuel 8 (eat_tok st).2 = .ok (right, st2) →
        (∀ num : ℚ, right ≠ .Literal num) →
        parse_left (fuel + 1) st = .ok (.Unary .Minus right, st2)) := by
  refine ⟨?_, ?_, ?_⟩
  · intro hc
    rw [parse_left_succ, show (eat_tok st).1 = st.current_tok from rfl, hc]
    rw [if_neg (by decide)]
    rfl
  · intro hc num st2 hp
    rw [parse_left_succ, show (eat_tok st).1 = st.current_tok from rfl, hc]
    rw [if_neg (by decide)]
    rw [show (Token.Minus.get_prefix_bp : Int) = 8 from rfl, hp]
    rfl
  · intro hc right st2 hp hnl
    rw [parse_left_succ, show (eat_tok st).1 = st.current_tok from rfl, hc]
    rw [if_neg (by decide)]
    rw [show (Token.Minus.get_prefix_bp : Int) = 8 from rfl, hp]
    cases right with
    | Literal num => exact absurd rfl (hnl num)
    | Identifier s => rfl
    | Binary l op r => rfl
    | Unary op r => rfl
    | Error => rfl

theorem c8_prefix_parsing_witness :
    parse_left 5 (stateOf [Token.Plus, Token.Identifier ("x")] [])
      = .error ("non negative bp should be valid unary op") ∧
    parse_left 5 (stateOf [Token.Minus, Token.Number 3] [])
      = .ok (.Literal ((3 : ℚ) * (-1)), stateOf [] []) ∧
    parse_left 5 (stateOf [Token.Minus, Token.Identifier ("x")] [])
      = .ok (.Unary .Minus (.Identifier ("x")), stateOf [] []) :=
  ⟨(c8_prefix_parsing 4 _).1 rfl,
   (c8_prefix_parsing 4 _).2.1 rfl 3 (stateOf [] []) rfl,
   (c8_prefix_parsing 4 _).2.2 rfl (.Identifier ("x")) (stateOf [] []) rfl
     (fun num h => Expr.noConfusion h)⟩

/-- C9: `Parser::from` panics exactly on an empty token stream, the
orchestrator's `add_item` reports "no input found, skipping" on an
empty stream instead of constructing a parser, and on a non-empty
stream it parses it. -/
theorem c9_parser_construction :
    (∀ ts : List Token, parser_from ts = none ↔ ts = []) ∧
    (∀ s : String, lexStr s = [] → add_item s = .error ("no input found, skipping")) ∧
    (∀ s : String, lexStr s ≠ [] → add_item s = parse_tokens (lexStr s)) := by
  refine ⟨?_, ?_, ?_⟩
  · intro ts
    constructor
    · intro h
      cases ts with
      | nil => rfl
      | cons t ts => exact Option.noConfusion h
    · intro h
      subst h
      rfl
  · intro s h
    show (match lexStr s with
      | [] => Except.error ("no input found, skipping")
      | t :: rest => parse_tokens (t :: rest)) = _
    rw [h]
  · intro s h
    rcases hls : lexStr s with - | ⟨t, ts⟩
    · exact absurd hls h
    · show (match lexStr s with
        | [] => Except.error ("no input found, skipping")
        | t :: rest => parse_tokens (t :: rest)) = parse_tokens (t :: ts)
      rw [hls]

theorem c9_parser_construction_witness :
    parser_from [] = none ∧
    add_item ("") = .error ("no input found, skipping") ∧
    add_item ("x") = parse_tokens (lexStr ("x")) :=
  ⟨(c9_parser_construction.1 []).mpr rfl,
   c9_parser_construction.2.1 ("") rfl,
   c9_parser_construction.2.2 ("x") (by decide)⟩
